import Mathlib

/-!
Verification of the TextProof correction pipeline.

Python strings are modelled as `List Char`; every function below is a
shallow embedding of the corresponding function of the repository
(`src/backend/...`), translated statement by statement.  Machine-level
concerns that do not affect the verified properties (logging, awaiting,
progress callbacks) are dropped; control flow and data flow are kept.
-/

namespace TextProof

/-! ## Python string primitives

`pyIsSpace` models the ASCII part of Python's whitespace class used by
`str.strip` / `str.rstrip` (space, tab, newline, carriage return,
vertical tab, form feed). -/

def pyIsSpace (c : Char) : Bool :=
  c = ' ' || c = '\t' || c = '\n' || c = '\r' || c = Char.ofNat 11 || c = Char.ofNat 12

/-- Python `str.lstrip()`. -/
def pyLstrip (s : List Char) : List Char := s.dropWhile pyIsSpace

/-- Python `str.rstrip()`. -/
def pyRstrip (s : List Char) : List Char := (s.reverse.dropWhile pyIsSpace).reverse

/-- Python `str.strip()`. -/
def pyStrip (s : List Char) : List Char := pyRstrip (pyLstrip s)

theorem pyLstrip_eq_nil_iff (s : List Char) :
    pyLstrip s = [] ↔ ∀ c ∈ s, pyIsSpace c = true := by
  simp [pyLstrip, List.dropWhile_eq_nil_iff]

theorem pyRstrip_eq_nil_iff (s : List Char) :
    pyRstrip s = [] ↔ ∀ c ∈ s, pyIsSpace c = true := by
  simp [pyRstrip, List.dropWhile_eq_nil_iff]

theorem pyStrip_eq_nil_iff (s : List Char) :
    pyStrip s = [] ↔ ∀ c ∈ s, pyIsSpace c = true := by
  unfold pyStrip
  rw [pyRstrip_eq_nil_iff]
  constructor
  · intro h c hc
    rcases List.mem_append.1 ((List.takeWhile_append_dropWhile (p := pyIsSpace) (l := s)) ▸ hc) with h1 | h2
    · exact List.mem_takeWhile_imp h1
    · exact h c h2
  · intro h c hc
    exact h c ((List.dropWhile_sublist _).subset hc)

theorem pyRstrip_length_le (s : List Char) : (pyRstrip s).length ≤ s.length := by
  simpa [pyRstrip] using (List.dropWhile_sublist (l := s.reverse) pyIsSpace).length_le

theorem pyStrip_length_le (s : List Char) : (pyStrip s).length ≤ s.length := by
  calc (pyStrip s).length ≤ (pyLstrip s).length := pyRstrip_length_le _
    _ ≤ s.length := (List.dropWhile_sublist _).length_le

/-! ## Diff utilities (`src/backend/utils/diff_utils.py`)

`collapseSpaces` models `re.sub(r' +', ' ', text)`: every maximal run of
spaces becomes a single space.  The flag records whether the previous
character was a space. -/

def collapseAux : Bool → List Char → List Char
  | _, [] => []
  | prev, c :: rest =>
    if c = ' ' then
      if prev then collapseAux true rest else ' ' :: collapseAux true rest
    else c :: collapseAux false rest

def collapseSpaces (s : List Char) : List Char := collapseAux false s

/-- Index of the last `'\n'` in a list, if any. -/
def lastNlIdx : List Char → Option Nat
  | [] => none
  | c :: rest =>
    match lastNlIdx rest with
    | some k => some (k + 1)
    | none => if c = '\n' then some 0 else none

/-- Models `re.sub(r'\n\s*\n+', '\n', text)`: scanning left to right, a
`'\n'` followed by a whitespace run that contains another `'\n'` is
replaced (together with that run up to its last `'\n'`) by a single
`'\n'`; scanning resumes after the match.  Structured with explicit fuel
so that the kernel can evaluate it; `collapseNlFuel s.length s` never
exhausts the fuel. -/
def collapseNlFuel : Nat → List Char → List Char
  | 0, s => s
  | _ + 1, [] => []
  | fuel + 1, c :: rest =>
    if c = '\n' then
      match lastNlIdx (rest.takeWhile pyIsSpace) with
      | some k => '\n' :: collapseNlFuel fuel (rest.drop (k + 1))
      | none => '\n' :: collapseNlFuel fuel rest
    else c :: collapseNlFuel fuel rest

def collapseNl (s : List Char) : List Char := collapseNlFuel s.length s

/-- `normalize_text_for_comparison` (diff_utils.py lines 37-54). -/
def normalize_text_for_comparison (s : List Char) : List Char :=
  pyStrip (collapseNl (collapseSpaces s))

/-- `compute_diff` (diff_utils.py lines 19-34) with the repository's
built-in fallback `diff_match_patch` implementation (lines 6-14): equal
texts give one equal segment, different texts give a delete of the whole
original and an insert of the whole corrected text; the semantic cleanup
of the fallback is a no-op. -/
def compute_diff (a b : List Char) : List (Int × List Char) :=
  if a = b then [(0, a)] else [(-1, a), (1, b)]

/-- `has_meaningful_changes` (diff_utils.py lines 57-85). -/
def has_meaningful_changes (a b : List Char) : Bool :=
  if a = b then false
  else if normalize_text_for_comparison a = normalize_text_for_comparison b then false
  else (compute_diff a b).any fun p => p.1 != 0 && !(pyStrip p.2).isEmpty

theorem collapseAux_mem (prev : Bool) (s : List Char) :
    ∀ c ∈ collapseAux prev s, c = ' ' ∨ c ∈ s := by
  induction s generalizing prev with
  | nil => simp [collapseAux]
  | cons x rest ih =>
    intro c hc
    by_cases hx : x = ' '
    · subst hx
      cases prev with
      | true =>
        simp only [collapseAux, if_pos rfl] at hc
        rcases ih true c hc with h | h
        · exact Or.inl h
        · exact Or.inr (List.mem_cons_of_mem _ h)
      | false =>
        simp only [collapseAux, if_pos rfl] at hc
        rcases List.mem_cons.1 hc with h | h
        · exact Or.inl h
        · rcases ih true c h with h2 | h2
          · exact Or.inl h2
          · exact Or.inr (List.mem_cons_of_mem _ h2)
    · simp only [collapseAux, if_neg hx] at hc
      rcases List.mem_cons.1 hc with h | h
      · exact Or.inr (h ▸ List.mem_cons_self _ _)
      · rcases ih false c h with h2 | h2
        · exact Or.inl h2
        · exact Or.inr (List.mem_cons_of_mem _ h2)

theorem collapseNlFuel_mem (fuel : Nat) (s : List Char) :
    ∀ c ∈ collapseNlFuel fuel s, c = '\n' ∨ c ∈ s := by
  induction fuel generalizing s with
  | zero => intro c hc; exact Or.inr hc
  | succ n ih =>
    intro c hc
    match s with
    | [] => simp [collapseNlFuel] at hc
    | x :: rest =>
      by_cases hx : x = '\n'
      · subst hx
        simp only [collapseNlFuel, if_pos rfl] at hc
        cases hnl : lastNlIdx (rest.takeWhile pyIsSpace) with
        | some k =>
          rw [hnl] at hc
          rcases List.mem_cons.1 hc with h | h
          · exact Or.inl h
          · rcases ih _ c h with h2 | h2
            · exact Or.inl h2
            · exact Or.inr (List.mem_cons_of_mem _ (List.mem_of_mem_drop h2))
        | none =>
          rw [hnl] at hc
          rcases List.mem_cons.1 hc with h | h
          · exact Or.inl h
          · rcases ih _ c h with h2 | h2
            · exact Or.inl h2
            · exact Or.inr (List.mem_cons_of_mem _ h2)
      · simp only [collapseNlFuel, if_neg hx] at hc
        rcases List.mem_cons.1 hc with h | h
        · exact Or.inr (h ▸ List.mem_cons_self _ _)
        · rcases ih _ c h with h2 | h2
          · exact Or.inl h2
          · exact Or.inr (List.mem_cons_of_mem _ h2)

/-- A whitespace-only string normalizes to the empty string. -/
theorem normalize_of_strip_nil {s : List Char} (h : pyStrip s = []) :
    normalize_text_for_comparison s = [] := by
  rw [pyStrip_eq_nil_iff] at h
  unfold normalize_text_for_comparison
  rw [pyStrip_eq_nil_iff]
  intro c hc
  rcases collapseNlFuel_mem _ _ c hc with h1 | h1
  · subst h1; rfl
  · rcases collapseAux_mem false s c h1 with h2 | h2
    · subst h2; rfl
    · exact h c h2

/-- C4 counterexample: on `a = "a  b"` (two spaces) and `b = "a b"`,
`a.strip()` differs from `b.strip()`, yet `has_meaningful_changes`
returns `false` (the interior space run is collapsed by
`normalize_text_for_comparison`), so the claimed law
`has_meaningful_changes(a, b) == (a.strip() != b.strip())` fails. -/
theorem c4_counterexample :
    has_meaningful_changes "a  b".data "a b".data = false ∧
    pyStrip "a  b".data ≠ pyStrip "a b".data := by
  constructor
  · rfl
  · decide

/-- C4 (amended): `has_meaningful_changes(a, b)` holds exactly when the
two texts differ after `normalize_text_for_comparison` (collapse space
runs, collapse blank lines, strip the ends); in particular it is never a
function of `a.strip() != b.strip()` alone. -/
theorem c4_has_meaningful_changes_iff (a b : List Char) :
    has_meaningful_changes a b = true ↔
      normalize_text_for_comparison a ≠ normalize_text_for_comparison b := by
  unfold has_meaningful_changes
  by_cases hab : a = b
  · subst hab
    simp
  · rw [if_neg hab]
    by_cases hn : normalize_text_for_comparison a = normalize_text_for_comparison b
    · simp [hn]
    · rw [if_neg hn]
      simp only [ne_eq, hn, not_false_eq_true, iff_true]
      unfold compute_diff
      rw [if_neg hab]
      simp only [List.any_cons, List.any_nil, Bool.or_false]
      by_cases ha : pyStrip a = []
      · by_cases hb : pyStrip b = []
        · exact absurd (normalize_of_strip_nil ha ▸ normalize_of_strip_nil hb ▸ rfl) hn
        · simp [ha, hb, List.isEmpty_iff]
      · simp [ha, List.isEmpty_iff]

/-! ## Adapter retry (`src/backend/models/base.py`, lines 35-79)

`correct_text_with_retry` is modelled as a trace: how many times the
underlying `correct_text` was invoked, which sleeps were performed, and
the final outcome.  The adapter is an oracle mapping the 0-based attempt
number to a result.  `Except.error none` models the final `raise
last_error` with `last_error` still `None` (a `TypeError` in Python),
reached only when the `for attempt in range(max_retries)` loop body
never ran. -/

structure RetryTrace (ε σ : Type) where
  calls : Nat
  sleeps : List ℚ
  outcome : Except (Option ε) σ

/-- The retry loop.  `a` is the 0-based attempt index, `r` the number of
remaining iterations of `range(max_retries)` (so the Python guard
`attempt < max_retries - 1` is `r ≠ 1`, i.e. the recursion only
continues when at least one more iteration follows). -/
def retryGo (f : Nat → Except ε σ) (d : ℚ) : Nat → Nat → Option ε → RetryTrace ε σ
  | _, 0, last => ⟨0, [], .error last⟩
  | a, r + 1, _ =>
    match f a with
    | .ok s => ⟨1, [], .ok s⟩
    | .error e =>
      if r = 0 then ⟨1, [], .error (some e)⟩
      else
        let t := retryGo f d (a + 1) r (some e)
        ⟨t.calls + 1, d * ((a + 1 : Nat) : ℚ) :: t.sleeps, t.outcome⟩

/-- `BaseModelAdapter.correct_text_with_retry`: run at most
`max_retries` attempts starting from attempt 0 with `last_error = None`.
A negative `max_retries` makes `range(max_retries)` empty. -/
def correct_text_with_retry (f : Nat → Except ε σ) (maxRetries : Int) (d : ℚ) :
    RetryTrace ε σ :=
  retryGo f d 0 maxRetries.toNat none

/-- The sleeps performed by `n` consecutive failed attempts starting at
0-based attempt `a`: `retry_delay * (attempt + 1)` each. -/
def sleepSeq (d : ℚ) : Nat → Nat → List ℚ
  | _, 0 => []
  | a, n + 1 => d * ((a + 1 : Nat) : ℚ) :: sleepSeq d (a + 1) n

/-- Behaviour of the retry loop against an adapter that fails on every
attempt `< K` (with error `E i`) and succeeds on attempt `K`. -/
theorem retryGo_spec (f : Nat → Except ε σ) (E : Nat → ε) (v : σ) (K : Nat) (d : ℚ) :
    ∀ (r a : Nat) (last : Option ε), a ≤ K →
      (∀ i, i < K → f i = .error (E i)) → f K = .ok v →
      retryGo f d a r last =
        if K - a < r then ⟨K - a + 1, sleepSeq d a (K - a), .ok v⟩
        else if r = 0 then ⟨0, [], .error last⟩
        else ⟨r, sleepSeq d a (r - 1), .error (some (E (a + r - 1)))⟩ := by
  intro r
  induction r with
  | zero =>
    intro a last _ _ _
    simp [retryGo]
  | succ n ih =>
    intro a last haK hf hfK
    rcases Nat.lt_or_ge a K with haltK | hageK
    · have hfa : f a = .error (E a) := hf a haltK
      have hKa : 0 < K - a := Nat.sub_pos_of_lt haltK
      simp only [retryGo, hfa]
      rcases Nat.eq_zero_or_pos n with hn | hn
      · subst hn
        rw [if_pos rfl]
        have h1 : ¬ K - a < 1 := by omega
        rw [if_neg h1, if_neg (by omega : ¬ (1 : Nat) = 0)]
        simp [sleepSeq]
      · rw [if_neg (by omega : ¬ n = 0)]
        rw [ih (a + 1) (some (E a)) (by omega) hf hfK]
        by_cases hlt : K - (a + 1) < n
        · rw [if_pos hlt, if_pos (by omega : K - a < n + 1)]
          have : K - a = (K - (a + 1)) + 1 := by omega
          simp [this, sleepSeq]
        · rw [if_neg hlt, if_neg (by omega : ¬ n = 0),
            if_neg (by omega : ¬ K - a < n + 1), if_neg (by omega : ¬ n + 1 = 0)]
          obtain ⟨m, rfl⟩ : ∃ m, n = m + 1 := ⟨n - 1, by omega⟩
          simp only [RetryTrace.mk.injEq, Nat.add_sub_cancel]
          refine ⟨trivial, ?_, ?_⟩
          · simp only [sleepSeq]
          · congr 3
            omega
    · have haeqK : a = K := Nat.le_antisymm haK hageK
      simp only [retryGo, haeqK, hfK]
      rw [if_pos (by omega : K - K < n + 1)]
      simp [sleepSeq]

/-- C7: against an adapter that fails on its first `K` invocations and
succeeds on invocation `K+1`, `correct_text_with_retry` invokes the
underlying `correct_text` exactly `min (K+1) max_retries` times, sleeps
`retry_delay * n` between the `n`-th and `(n+1)`-th attempts (`sleepSeq d
0 (calls - 1)` is exactly that list), returns the success when `K <
max_retries`, and on exhaustion re-raises the last error (the one from
attempt `max_retries`). -/
theorem c7_retry_count (f : Nat → Except ε σ) (E : Nat → ε) (v : σ)
    (K maxRetries : Nat) (d : ℚ)
    (hf : ∀ i, i < K → f i = .error (E i)) (hfK : f K = .ok v)
    (hmr : 1 ≤ maxRetries) :
    (correct_text_with_retry f (maxRetries : Int) d).calls = min (K + 1) maxRetries ∧
    (correct_text_with_retry f (maxRetries : Int) d).sleeps =
      sleepSeq d 0 ((correct_text_with_retry f (maxRetries : Int) d).calls - 1) ∧
    (K < maxRetries → (correct_text_with_retry f (maxRetries : Int) d).outcome = .ok v) ∧
    (maxRetries ≤ K →
      (correct_text_with_retry f (maxRetries : Int) d).outcome =
        .error (some (E (maxRetries - 1)))) := by
  have ht : correct_text_with_retry f (maxRetries : Int) d =
      retryGo f d 0 maxRetries none := by
    unfold correct_text_with_retry
    rw [Int.toNat_natCast]
  rw [ht, retryGo_spec f E v K d maxRetries 0 none (Nat.zero_le K) hf hfK]
  by_cases hlt : K - 0 < maxRetries
  · rw [if_pos hlt]
    refine ⟨by simp; omega, by simp, fun _ => rfl, fun hle => absurd hlt (by omega)⟩
  · rw [if_neg hlt, if_neg (by omega : ¬ maxRetries = 0)]
    refine ⟨by simp; omega, by simp, fun hk => absurd hk (by omega), by simp⟩

/-- Demonstration adapter for the retry witnesses: fails on attempt 0
with error `0`, succeeds from attempt 1 on. -/
def retryDemoAdapter : Nat → Except Nat (List Char) :=
  fun i => if i < 1 then .error i else .ok "done".data

theorem c7_witness :
    (correct_text_with_retry retryDemoAdapter 3 2).calls = 2 ∧
    (correct_text_with_retry retryDemoAdapter 3 2).sleeps = [2] ∧
    (correct_text_with_retry retryDemoAdapter 3 2).outcome = .ok "done".data := by
  have h := c7_retry_count retryDemoAdapter (fun i => i) "done".data 1 3 2
    (by
      intro i hi
      have h0 : i = 0 := Nat.lt_one_iff.1 hi
      subst h0
      rfl) rfl (by omega)
  have h3 : ((3 : Nat) : Int) = (3 : Int) := by norm_num
  rw [h3] at h
  refine ⟨?_, ?_, ?_⟩
  · have := h.1
    simpa using this
  · have := h.2.1
    rw [h.1] at this
    simpa [sleepSeq] using this
  · exact h.2.2.1 (by omega)

/-- C10: with `max_retries ≤ 0` the retry loop body never runs: the
underlying `correct_text` is invoked zero times, no sleep happens, and
the call raises the initial `None` last-error (`raise last_error` after
the loop, a `TypeError` rather than an adapter error), even though the
configuration validation accepts `max_retries = 0`. -/
theorem c10_retry_nonpositive (f : Nat → Except ε σ) (maxRetries : Int) (d : ℚ)
    (h : maxRetries ≤ 0) :
    correct_text_with_retry f maxRetries d = ⟨0, [], .error none⟩ := by
  unfold correct_text_with_retry
  rw [Int.toNat_of_nonpos h]
  rfl

theorem c10_witness :
    correct_text_with_retry retryDemoAdapter 0 2 = ⟨0, [], .error none⟩ :=
  c10_retry_nonpositive retryDemoAdapter 0 2 (by omega)

/-! ## Recursive splitter (`src/backend/utils/text_splitter.py`)

`pySplitChar sep` models Python `str.split(sep)` for a one-character
separator (keeps empty fields); `splitPara` models `text.split("\n\n")`
(leftmost non-overlapping matches). -/

def pySplitChar (sep : Char) : List Char → List (List Char)
  | [] => [[]]
  | c :: rest =>
    if c = sep then [] :: pySplitChar sep rest
    else
      match pySplitChar sep rest with
      | [] => [[c]]
      | l :: ls => (c :: l) :: ls

def splitParaAux : List Char → List Char → List (List Char)
  | acc, [] => [acc.reverse]
  | acc, '\n' :: '\n' :: rest => acc.reverse :: splitParaAux [] rest
  | acc, c :: rest => splitParaAux (c :: acc) rest

def splitPara (s : List Char) : List (List Char) := splitParaAux [] s

/-- Index of the first occurrence of `c` (Python `str.find`, as an
`Option` instead of `-1`). -/
def pyFindIdx (c : Char) : List Char → Option Nat
  | [] => none
  | x :: rest => if x = c then some 0 else (pyFindIdx c rest).map (· + 1)

/-- Index of the last occurrence of `c` (Python `str.rfind`). -/
def rfindIdx (c : Char) (s : List Char) : Option Nat :=
  (pyFindIdx c s.reverse).map (fun i => s.length - 1 - i)

/-- Models the comparison `idx > overlap_size * 0.3` of
`_get_overlap_text` for a found index (`idx = -1` when the character is
absent, in which case the comparison is always false for `overlap_size ≥
0`).  The float product `overlap_size * 0.3` is modelled exactly as the
rational `3 * overlap_size / 10`. -/
def idxBeyond (found : Option Nat) (ov : Nat) : Bool :=
  match found with
  | some i => decide (3 * ov < 10 * i)
  | none => false

/-- `TextSplitter._get_overlap_text` (text_splitter.py lines 120-138).
Note Python `text[-overlap_size:]` is the whole text when
`overlap_size = 0` (the callers only pass a positive overlap). -/
def getOverlapText (ov : Nat) (text : List Char) : List Char :=
  if text.length ≤ ov then text
  else
    let t := if ov = 0 then text else text.drop (text.length - ov)
    if idxBeyond (pyFindIdx '。' t) ov then t.drop ((pyFindIdx '。' t).getD 0 + 1)
    else if idxBeyond (pyFindIdx '\n' t) ov then t.drop ((pyFindIdx '\n' t).getD 0 + 1)
    else t

/-- Tags the final element of a list (Python's `i < len(sentences) - 1`
test in `_split_long_paragraph`). -/
def markLast {α : Type} : List α → List (α × Bool)
  | [] => []
  | [a] => [(a, true)]
  | a :: rest => (a, false) :: markLast rest

/-- The loop of `TextSplitter._split_long_paragraph` (lines 91-116) over
the `。`-separated sentences: `chunks` is the accumulated output,
`current` the chunk under construction. -/
def slpGo (size ov : Nat) : List (List Char × Bool) → List (List Char) → List Char →
    List (List Char)
  | [], chunks, current => if current ≠ [] then chunks ++ [current] else chunks
  | (s0, isLast) :: rest, chunks, current =>
    let s1 := pyStrip s0
    if s1 = [] then slpGo size ov rest chunks current
    else
      let s := if isLast then s1 else s1 ++ ['。']
      let test := if current ≠ [] then current ++ s else s
      if test.length ≤ size then slpGo size ov rest chunks test
      else
        let chunks1 := if current ≠ [] then chunks ++ [current] else chunks
        let current1 :=
          if chunks1 ≠ [] ∧ 0 < ov then getOverlapText ov (chunks1.getLastD []) ++ s
          else s
        slpGo size ov rest chunks1 current1

/-- `TextSplitter._split_long_paragraph` (lines 85-118). -/
def splitLongParagraph (size ov : Nat) (para : List Char) : List (List Char) :=
  slpGo size ov (markLast (pySplitChar '。' para)) [] []

/-- The paragraph loop of `TextSplitter.split` (lines 50-81). -/
def splitGo (size ov : Nat) : List (List Char) → List (List Char) → List Char →
    List (List Char)
  | [], chunks, current => if current ≠ [] then chunks ++ [pyStrip current] else chunks
  | para :: rest, chunks, current =>
    if size < para.length then
      let chunks1 := if current ≠ [] then chunks ++ [pyStrip current] else chunks
      splitGo size ov rest (chunks1 ++ splitLongParagraph size ov para) []
    else
      let test := if current ≠ [] then current ++ '\n' :: '\n' :: para else para
      if test.length ≤ size then splitGo size ov rest chunks test
      else
        let chunks1 := if current ≠ [] then chunks ++ [pyStrip current] else chunks
        let current1 :=
          if chunks1 ≠ [] ∧ 0 < ov then
            getOverlapText ov (chunks1.getLastD []) ++ '\n' :: '\n' :: para
          else para
        splitGo size ov rest chunks1 current1

/-- `TextSplitter.split` (lines 31-83). -/
def splitterSplit (size ov : Nat) (text : List Char) : List (List Char) :=
  if text = [] then [] else splitGo size ov (splitPara text) [] []

/-! ## Reassembler (`TextSplitter.merge` / `_remove_overlap`) -/

/-- Strategy 1 of `_remove_overlap`: the first `len` in the descending
range `range(max_overlap, max(0, overlap - 50), -1)` such that the
suffix of `prev` of that length equals the prefix of `curr`. -/
def findExact (prev curr : List Char) (stop : Nat) : Nat → Option Nat
  | 0 => none
  | len + 1 =>
    if len + 1 ≤ stop then none
    else if prev.drop (prev.length - (len + 1)) = curr.take (len + 1) then some (len + 1)
    else findExact prev curr stop len

/-- Strategy 4 of `_remove_overlap`: the first `test_len` in
`range(search_len, 10, -1)` with `prev.endswith(curr[:test_len])`. -/
def findSuffixMatch (prev curr : List Char) : Nat → Option Nat
  | 0 => none
  | len + 1 =>
    if len + 1 ≤ 10 then none
    else if (curr.take (len + 1)).isSuffixOf prev then some (len + 1)
    else findSuffixMatch prev curr len

/-- Python's substring test `needle in hay` on strings. -/
def isSubstring (needle : List Char) : List Char → Bool
  | [] => needle.isEmpty
  | c :: rest => needle.isPrefixOf (c :: rest) || isSubstring needle rest

/-- `TextSplitter._remove_overlap` (lines 177-245); `none` models the
Python `None` return that makes `merge` concatenate with `"\n\n"`. -/
def removeOverlap (ov : Nat) (prev curr : List Char) : Option (List Char) :=
  if prev = [] ∨ curr = [] then none
  else
    let maxOv := min prev.length (min curr.length (ov * 3))
    match findExact prev curr (ov - 50) maxOv with
    | some len => some (curr.drop len)
    | none =>
      let s2 : Option (List Char) :=
        match rfindIdx '。' prev with
        | some pidx =>
          if prev.length - maxOv ≤ pidx then
            let matched := pyStrip (prev.drop (pidx + 1))
            if !matched.isEmpty && matched.isPrefixOf curr then
              some (curr.drop matched.length)
            else
              let mns := matched.filter fun c => !(c = ' ' || c = '\n')
              let cns := (curr.take matched.length).filter fun c => !(c = ' ' || c = '\n')
              if !mns.isEmpty && mns.isPrefixOf cns then some (curr.drop matched.length)
              else none
          else none
        | none => none
      match s2 with
      | some r => some r
      | none =>
        let s3 : Option (List Char) :=
          match rfindIdx '\n' prev with
          | some nidx =>
            if prev.length - maxOv ≤ nidx then
              let matched := pyStrip (prev.drop (nidx + 1))
              if !matched.isEmpty && matched.isPrefixOf curr then
                some (curr.drop matched.length)
              else none
            else none
          | none => none
        match s3 with
        | some r => some r
        | none =>
          let searchLen := min 200 (min curr.length prev.length)
          match findSuffixMatch prev curr searchLen with
          | some len => some (curr.drop len)
          | none =>
            if decide (2 * curr.length < prev.length) && isSubstring curr prev then some []
            else none

/-- The pair loop of `TextSplitter.merge` (lines 158-173): each step
compares the previous original chunk with the current one. -/
def mergeGo (ov : Nat) : List Char → List (List Char) → List Char
  | _, [] => []
  | prev, curr :: rest =>
    (match removeOverlap ov prev curr with
     | some r => r
     | none => '\n' :: '\n' :: curr) ++ mergeGo ov curr rest

/-- `TextSplitter.merge` (lines 140-175). -/
def splitterMerge (ov : Nat) : List (List Char) → List Char
  | [] => []
  | c :: rest => c ++ mergeGo ov c rest

/-- Invariant of the paragraph loop: with no configured overlap and all
paragraphs within the bound, every emitted chunk stays within the
bound. -/
theorem splitGo_bound (size : Nat) :
    ∀ (paras chunks : List (List Char)) (current : List Char),
      (∀ p ∈ paras, p.length ≤ size) →
      (∀ c ∈ chunks, c.length ≤ size) →
      current.length ≤ size →
      ∀ c ∈ splitGo size 0 paras chunks current, c.length ≤ size := by
  intro paras
  induction paras with
  | nil =>
    intro chunks current _ hc hcur c hmem
    simp only [splitGo] at hmem
    by_cases h : current ≠ []
    · rw [if_pos h] at hmem
      rcases List.mem_append.1 hmem with h1 | h1
      · exact hc c h1
      · rw [List.mem_singleton.1 h1]
        exact le_trans (pyStrip_length_le current) hcur
    · rw [if_neg h] at hmem
      exact hc c hmem
  | cons para rest ih =>
    intro chunks current hp hc hcur c hmem
    have hpara : para.length ≤ size := hp para (List.mem_cons_self _ _)
    have hrest : ∀ p ∈ rest, p.length ≤ size := fun p h => hp p (List.mem_cons_of_mem _ h)
    simp only [splitGo] at hmem
    rw [if_neg (by omega : ¬ size < para.length)] at hmem
    by_cases htest :
        (if current ≠ [] then current ++ '\n' :: '\n' :: para else para).length ≤ size
    · rw [if_pos htest] at hmem
      exact ih _ _ hrest hc htest c hmem
    · rw [if_neg htest] at hmem
      have hchunks1 : ∀ x ∈ (if current ≠ [] then chunks ++ [pyStrip current] else chunks),
          x.length ≤ size := by
        intro x hx
        by_cases h : current ≠ []
        · rw [if_pos h] at hx
          rcases List.mem_append.1 hx with h1 | h1
          · exact hc x h1
          · rw [List.mem_singleton.1 h1]
            exact le_trans (pyStrip_length_le current) hcur
        · rw [if_neg h] at hx
          exact hc x hx
      rw [if_neg (by simp : ¬ ((if current ≠ [] then chunks ++ [pyStrip current]
        else chunks) ≠ [] ∧ 0 < 0))] at hmem
      exact ih _ _ hrest hchunks1 hpara c hmem

/-- A text that is a single paragraph consisting of a single `。`-free
sentence is emitted as one whole (stripped) chunk, whatever its length:
there is no force-split by character count in `TextSplitter`. -/
theorem split_single_sentence (size ov : Nat) (text : List Char)
    (h0 : text ≠ []) (hp : splitPara text = [text])
    (hs : pySplitChar '。' text = [text]) (hns : pyStrip text ≠ []) :
    splitterSplit size ov text = [pyStrip text] := by
  unfold splitterSplit
  rw [if_neg h0, hp]
  simp only [splitGo, splitLongParagraph, hs, markLast, slpGo]
  simp [h0, hns]

/-- C6 counterexample: both halves of the claim fail on the code.
With `chunk_size = 10`, `chunk_overlap = 5` and two 10-character
paragraphs (no sentence exceeds `chunk_size`), the configured overlap is
prepended with a `"\n\n"` separator and the second emitted chunk has
length 17 > 10.  And a single full-stop-free sentence of length 8 with
`chunk_size = 5` is emitted whole, not force-split into length-5
pieces. -/
theorem c6_counterexample :
    splitterSplit 10 5 "aaaaaaaaaa\n\nbbbbbbbbbb".data =
      ["aaaaaaaaaa".data, "aaaaa\n\nbbbbbbbbbb".data] ∧
    ("aaaaa\n\nbbbbbbbbbb".data).length = 17 ∧
    splitterSplit 5 0 "abcdefgh".data = ["abcdefgh".data] := by
  refine ⟨by decide, by decide, by decide⟩

/-- C6 (amended): when `chunk_overlap = 0` and no paragraph of the input
exceeds `chunk_size`, every chunk emitted by the recursive splitter has
length at most `chunk_size`.  A configured positive overlap can push a
chunk past `chunk_size`, and an input that is a single sentence without
full-stops longer than `chunk_size` is emitted whole as one over-long
chunk — the splitter has no force-split by character count. -/
theorem c6_chunk_bound (size ov : Nat) (text : List Char) :
    ((∀ p ∈ splitPara text, p.length ≤ size) →
      ∀ c ∈ splitterSplit size 0 text, c.length ≤ size) ∧
    (text ≠ [] → splitPara text = [text] → pySplitChar '。' text = [text] →
      pyStrip text ≠ [] → splitterSplit size ov text = [pyStrip text]) := by
  constructor
  · intro hp c hmem
    unfold splitterSplit at hmem
    by_cases h0 : text = []
    · rw [if_pos h0] at hmem
      exact absurd hmem (List.not_mem_nil c)
    · rw [if_neg h0] at hmem
      exact splitGo_bound size (splitPara text) [] [] hp (by simp) (by simp) c hmem
  · intro h0 hp hs hns
    exact split_single_sentence size ov text h0 hp hs hns

theorem c6_witness :
    (∀ c ∈ splitterSplit 6 0 "aaa\n\nbb\n\ncccc".data, c.length ≤ 6) ∧
    splitterSplit 4 2 "hello world".data = ["hello world".data] := by
  constructor
  · exact (c6_chunk_bound 6 0 "aaa\n\nbb\n\ncccc".data).1 (by decide)
  · exact (c6_chunk_bound 4 2 "hello world".data).2 (by decide) (by decide)
      (by decide) (by decide)

/-! ## Sentence splitting (`CorrectionService._split_by_sentences`,
`src/backend/services/correction_service.py` lines 68-216)

`max_length` is `Option Nat` (`None` = unlimited).  `fits m n` is the
Python test `max_len is None or n <= max_len`. -/

def fits (maxLen : Option Nat) (n : Nat) : Bool :=
  match maxLen with
  | none => true
  | some m => decide (n ≤ m)

/-- `_force_split` piece loop (`text[i:i+max_len]` for `i` in
`range(0, len(text), max_len)`), with fuel `text.length`; `max_len = 0`
would make Python raise and is never reached by the callers (they only
force-split when `len(text) > max_len`). -/
def forceSplitGo (m : Nat) : Nat → List Char → List (List Char)
  | _, [] => []
  | 0, s => [s]
  | fuel + 1, s => s.take m :: forceSplitGo m fuel (s.drop m)

/-- `_split_by_sentences._force_split` (lines 174-181). -/
def forceSplit (maxLen : Option Nat) (s : List Char) : List (List Char) :=
  match maxLen with
  | none => [s]
  | some m => if s.length ≤ m then [s] else forceSplitGo m s.length s

/-- Python `re.split` with a single-character capturing class: the
fields between delimiters (possibly empty) interleaved with the
one-character delimiters themselves. -/
def splitKeepGo (p : Char → Bool) : List Char → List Char → List (List Char)
  | acc, [] => [acc.reverse]
  | acc, c :: rest =>
    if p c then acc.reverse :: [c] :: splitKeepGo p [] rest
    else splitKeepGo p (c :: acc) rest

def splitKeep (p : Char → Bool) (s : List Char) : List (List Char) :=
  splitKeepGo p [] s

def isCommaDelim (part : List Char) : Bool := part = ['，'] || part = ['；']

def isStopDelim (part : List Char) : Bool :=
  part = ['。'] || part = ['！'] || part = ['？']

/-- The part loop of `_split_by_comma` (lines 138-170).  Note that in the
`len(part) > max_len` branch the source extends the result with the
force-split of `part` but does not clear `current_part`, which is
therefore emitted again later — the embedding reproduces this. -/
def sbcGo (maxLen : Option Nat) : List (List Char) → List Char → List (List Char)
  | [], current => if current.isEmpty then [] else [current]
  | part :: rest, current =>
    if isCommaDelim part then
      if current.isEmpty then part :: sbcGo maxLen rest current
      else
        let test := current ++ part
        if fits maxLen test.length then test :: sbcGo maxLen rest []
        else (forceSplit maxLen current ++ [part]) ++ sbcGo maxLen rest []
    else if !(pyStrip part).isEmpty then
      let test := current ++ part
      if fits maxLen test.length then sbcGo maxLen rest test
      else
        (if current.isEmpty then [] else [current]) ++
        (if !fits maxLen part.length then forceSplit maxLen part ++ sbcGo maxLen rest current
         else sbcGo maxLen rest part)
    else sbcGo maxLen rest current

/-- `_split_by_sentences._split_by_comma` (lines 133-172). -/
def splitByComma (maxLen : Option Nat) (text : List Char) : List (List Char) :=
  if fits maxLen text.length then [text]
  else
    let r := sbcGo maxLen (splitKeep (fun c => c = '，' || c = '；') text) []
    if r.isEmpty then [text] else r

/-- The part loop of `_split_by_punctuation` (lines 101-129); the same
non-cleared `current_sentence` quirk as in `sbcGo` is reproduced. -/
def sbpGo (maxLen : Option Nat) : List (List Char) → List Char → List (List Char)
  | [], current => if current.isEmpty then [] else [current]
  | part :: rest, current =>
    if isStopDelim part then
      if current.isEmpty then part :: sbpGo maxLen rest current
      else
        let full := current ++ part
        if fits maxLen full.length then full :: sbpGo maxLen rest []
        else (splitByComma maxLen current ++ [part]) ++ sbpGo maxLen rest []
    else if !(pyStrip part).isEmpty then
      let test := current ++ part
      if fits maxLen test.length then sbpGo maxLen rest test
      else
        (if current.isEmpty then [] else [current]) ++
        (if !fits maxLen part.length then splitByComma maxLen part ++ sbpGo maxLen rest current
         else sbpGo maxLen rest part)
    else sbpGo maxLen rest current

/-- `_split_by_sentences._split_by_punctuation` (lines 91-131). -/
def splitByPunctuation (maxLen : Option Nat) (text : List Char) : List (List Char) :=
  if fits maxLen text.length then [text]
  else
    let r := sbpGo maxLen (splitKeep (fun c => c = '。' || c = '！' || c = '？') text) []
    if r.isEmpty then [text] else r

/-- Line endings attached to the pieces of one split line: every piece
but the last gets no ending, the last gets the line's own ending. -/
def tailEndings (nl : List Char) : List (List Char) → List (List Char)
  | [] => []
  | [_] => [nl]
  | _ :: rest => [] :: tailEndings nl rest

/-- One iteration of the line loop of `_split_by_sentences` (lines
188-210): `hasNl` is `line_idx < len(lines) - 1`.  Returns the
sentences and their parallel endings contributed by this line. -/
def processLine (maxLen : Option Nat) (line : List Char) (hasNl : Bool) :
    List (List Char) × List (List Char) :=
  let l := pyRstrip line
  let nl : List Char := if hasNl then ['\n'] else []
  if (pyStrip l).isEmpty then ([[]], [nl])
  else if fits maxLen l.length then ([l], [nl])
  else
    let ps := splitByPunctuation maxLen l
    (ps, tailEndings nl ps)

/-- The full line loop over `text.split('\n')`. -/
def sbsGo (maxLen : Option Nat) : List (List Char) → List (List Char) × List (List Char)
  | [] => ([], [])
  | [line] => processLine maxLen line false
  | line :: rest =>
    let p := processLine maxLen line true
    let q := sbsGo maxLen rest
    (p.1 ++ q.1, p.2 ++ q.2)

/-- `CorrectionService._split_by_sentences` (lines 68-216), including the
final length padding of `line_endings` and the `([text], [''])` fallback
for an empty sentence list. -/
def splitBySentences (maxLen : Option Nat) (text : List Char) :
    List (List Char) × List (List Char) :=
  if text.isEmpty then ([], [])
  else
    let r := sbsGo maxLen (pySplitChar '\n' text)
    let endings := r.2 ++ List.replicate (r.1.length - r.2.length) []
    if r.1.isEmpty then ([text], [[]]) else (r.1, endings)

/-- The reassembly of sentence mode (lines 324-329): each corrected
sentence followed by its recorded ending. -/
def interleave : List (List Char) → List (List Char) → List Char
  | [], _ => []
  | c :: cs, [] => c ++ interleave cs []
  | c :: cs, e :: es => c ++ e ++ interleave cs es

/-! ## Correction engine (`CorrectionService.correct_text`)

The adapter is an oracle from the unit index and the text sent to it to
one of four outcomes, mirroring the exception classes of
`models/exceptions.py` (`ConnectionError`, `ServiceUnavailableError`) and
a generic `Exception`. -/

inductive AdapterResult where
  | ok (out : List Char)
  | connErr (msg : List Char)
  | svcErr (msg : List Char)
  | genErr (msg : List Char)

/-- The two per-unit loops (sentence mode, lines 257-321, and chunked
mode, lines 416-510) differ only in whether blank units are skipped
without an adapter call, in the input transformation (the optional
pycorrector pre-pass of sentence mode), and in the fill messages used
when the consecutive-failure breaker stops the loop. -/
structure LoopCfg where
  skipBlank : Bool
  transform : List Char → List Char
  svcSkipMsg : List Char
  genSkipMsg : List Char

/-- Failure entries for the remaining units when the loop stops early:
`for j in range(i+1, total)` appends `{"chunk_index": j+1, "error": msg}`;
`j` here is the 0-based index of the first remaining unit. -/
def skipEntries (msg : List Char) : Nat → List (List Char) → List (Nat × List Char)
  | _, [] => []
  | j, _ :: rest => (j + 1, msg) :: skipEntries msg (j + 1) rest

/-- `"因连接错误跳过处理: "` prefix used for units skipped after a fatal
connection error (lines 299 and 455). -/
def connSkipMsg (m : List Char) : List Char := "因连接错误跳过处理: ".data ++ m

/-- The per-unit loop.  Returns the per-unit output texts (corrected or
substituted originals), the failure entries `(chunk_index, error)`, and
the 0-based indices of the units for which the adapter was invoked. -/
def loopGo (cfg : LoopCfg) (oracle : Nat → List Char → AdapterResult) :
    Nat → Nat → List (List Char) →
    List (List Char) × List (Nat × List Char) × List Nat
  | _, _, [] => ([], [], [])
  | i, consec, u :: rest =>
    if cfg.skipBlank && (pyStrip u).isEmpty then
      let r := loopGo cfg oracle (i + 1) consec rest
      (u :: r.1, r.2.1, r.2.2)
    else
      match oracle i (cfg.transform u) with
      | .ok out =>
        let r := loopGo cfg oracle (i + 1) 0 rest
        (out :: r.1, r.2.1, i :: r.2.2)
      | .connErr m =>
        (u :: rest, (i + 1, m) :: skipEntries (connSkipMsg m) (i + 1) rest, [i])
      | .svcErr m =>
        if 3 ≤ consec + 1 then
          (u :: rest, (i + 1, m) :: skipEntries cfg.svcSkipMsg (i + 1) rest, [i])
        else
          let r := loopGo cfg oracle (i + 1) (consec + 1) rest
          (u :: r.1, (i + 1, m) :: r.2.1, i :: r.2.2)
      | .genErr m =>
        if 3 ≤ consec + 1 then
          (u :: rest, (i + 1, m) :: skipEntries cfg.genSkipMsg (i + 1) rest, [i])
        else
          let r := loopGo cfg oracle (i + 1) (consec + 1) rest
          (u :: r.1, (i + 1, m) :: r.2.1, i :: r.2.2)

/-- Sentence mode catches `ModelConnectionError` specially and every
other exception (including `ServiceUnavailableError`) identically, so
both fill messages are `"因连续失败跳过处理"`; units are the sentences,
blank ones are carried through without an adapter call, and the input is
optionally pre-corrected. -/
def sentenceCfg (usePyc : Bool) (pre : List Char → List Char) : LoopCfg :=
  ⟨true, fun s => if usePyc then pre s else s,
    "因连续失败跳过处理".data, "因连续失败跳过处理".data⟩

/-- Chunked mode: no blank skipping, no pre-pass, distinct fill messages
for `ServiceUnavailableError` (line 482) and generic failures (line
508). -/
def chunkedCfg : LoopCfg :=
  ⟨false, fun s => s, "因连续服务不可用跳过处理".data, "因连续失败跳过处理".data⟩

/-- The returned record.  The three failure fields are `Option`-wrapped
to model dictionary-key presence: `none` means the key is absent (the
empty-input return at lines 243-248 and 398-403); `failure_details` is
itself `Option`-valued because the source stores Python `None` there
when no unit failed. -/
structure EngineReturn where
  original : List Char
  corrected : List Char
  chunks_processed : Nat
  total_chunks : Nat
  failed_chunks : Option Nat
  has_failures : Option Bool
  failure_details : Option (Option (List (Nat × List Char)))

inductive CorrectOutcome where
  | ret (r : EngineReturn)
  | err (msg : List Char)

def natChars (n : Nat) : List Char := (Nat.repr n).data

def joinSemi : List (List Char) → List Char
  | [] => []
  | [x] => x
  | x :: rest => x ++ "; ".data ++ joinSemi rest

def entryStr (label : List Char) (e : Nat × List Char) : List Char :=
  label ++ natChars e.1 ++ ": ".data ++ e.2

/-- The all-failed error message of sentence mode (lines 331-336): only
the first five failures are listed, with a count suffix when there are
more. -/
def sentAllFailMsg (f : List (Nat × List Char)) : List Char :=
  "所有句子校对失败: ".data ++ joinSemi ((f.take 5).map (entryStr "句子 ".data)) ++
    (if 5 < f.length then
      " ... (共".data ++ natChars f.length ++ "个失败)".data
     else [])

/-- The all-failed error message of chunked mode (lines 516-518): every
failure is listed. -/
def chunkAllFailMsg (f : List (Nat × List Char)) : List Char :=
  "所有片段校对失败: ".data ++ joinSemi (f.map (entryStr "片段 ".data))

/-- Sentence mode of `CorrectionService.correct_text` (lines 236-346).
Returns the outcome together with the adapter call trace. -/
def correctSentenceMode (oracle : Nat → List Char → AdapterResult)
    (usePyc : Bool) (pre : List Char → List Char) (maxLen : Option Nat)
    (text : List Char) : CorrectOutcome × List Nat :=
  let s := splitBySentences maxLen text
  if s.1.isEmpty then
    (.ret ⟨text, text, 0, 0, none, none, none⟩, [])
  else
    let r := loopGo (sentenceCfg usePyc pre) oracle 0 0 s.1
    let correctedText := interleave r.1 s.2
    if r.2.1.length = s.1.length then (.err (sentAllFailMsg r.2.1), r.2.2)
    else
      (.ret ⟨text, correctedText,
        (r.1.filter fun x => !(pyStrip x).isEmpty).length,
        s.1.length, some r.2.1.length, some (decide (0 < r.2.1.length)),
        some (if r.2.1.isEmpty then none else some r.2.1)⟩, r.2.2)

/-- Chunked mode of `CorrectionService.correct_text` (lines 393-529). -/
def correctChunked (oracle : Nat → List Char → AdapterResult)
    (size ov : Nat) (text : List Char) : CorrectOutcome × List Nat :=
  let chunks := splitterSplit size ov text
  if chunks.isEmpty then
    (.ret ⟨text, text, 0, 0, none, none, none⟩, [])
  else
    let r := loopGo chunkedCfg oracle 0 0 chunks
    let merged := splitterMerge ov r.1
    if r.2.1.length = chunks.length then (.err (chunkAllFailMsg r.2.1), r.2.2)
    else
      (.ret ⟨text, merged, r.1.length, chunks.length,
        some r.2.1.length, some (decide (0 < r.2.1.length)),
        some (if r.2.1.isEmpty then none else some r.2.1)⟩, r.2.2)

theorem skipEntries_length (msg : List Char) :
    ∀ (rest : List (List Char)) (start : Nat),
      (skipEntries msg start rest).length = rest.length := by
  intro rest
  induction rest with
  | nil => intro start; rfl
  | cons u tail ih => intro start; simp [skipEntries, ih]

theorem skipEntries_mem (msg : List Char) :
    ∀ (rest : List (List Char)) (start j : Nat),
      start ≤ j → j < start + rest.length →
      (j + 1, msg) ∈ skipEntries msg start rest := by
  intro rest
  induction rest with
  | nil => intro start j h1 h2; simp at h2; omega
  | cons u tail ih =>
    intro start j h1 h2
    by_cases hj : j = start
    · subst hj
      exact List.mem_cons_self _ _
    · exact List.mem_cons_of_mem _ (ih (start + 1) j (by omega) (by simp at h2 ⊢; omega))

/-- The loop substitutes a text for every unit: the output list has one
entry per unit in every exit path. -/
theorem loopGo_fst_length (cfg : LoopCfg) (oracle : Nat → List Char → AdapterResult) :
    ∀ (units : List (List Char)) (i consec : Nat),
      (loopGo cfg oracle i consec units).1.length = units.length := by
  intro units
  induction units with
  | nil => intro i consec; rfl
  | cons u rest ih =>
    intro i consec
    simp only [loopGo]
    by_cases hb : (cfg.skipBlank && (pyStrip u).isEmpty) = true
    · rw [if_pos hb]
      simp [ih]
    · rw [if_neg hb]
      cases oracle i (cfg.transform u) with
      | ok out => simp [ih]
      | connErr m => simp
      | svcErr m =>
        by_cases h3 : 3 ≤ consec + 1
        · simp [h3]
        · simp [h3, ih]
      | genErr m =>
        by_cases h3 : 3 ≤ consec + 1
        · simp [h3]
        · simp [h3, ih]

/-- Every adapter call of the loop targets a unit of the list: call
indices lie in `[i, i + units.length)`. -/
theorem loopGo_calls_bound (cfg : LoopCfg) (oracle : Nat → List Char → AdapterResult) :
    ∀ (units : List (List Char)) (i consec j : Nat),
      j ∈ (loopGo cfg oracle i consec units).2.2 → i ≤ j ∧ j < i + units.length := by
  intro units
  induction units with
  | nil => intro i consec j hj; simp [loopGo] at hj
  | cons u rest ih =>
    intro i consec j hj
    simp only [loopGo] at hj
    by_cases hb : (cfg.skipBlank && (pyStrip u).isEmpty) = true
    · rw [if_pos hb] at hj
      have := ih (i + 1) consec j hj
      exact ⟨by omega, by simp only [List.length_cons]; omega⟩
    · rw [if_neg hb] at hj
      cases horacle : oracle i (cfg.transform u) with
      | ok out =>
        rw [horacle] at hj
        simp only [List.mem_cons] at hj
        rcases hj with h | h
        · subst h; exact ⟨by omega, by simp only [List.length_cons]; omega⟩
        · have := ih (i + 1) 0 j h
          exact ⟨by omega, by simp only [List.length_cons]; omega⟩
      | connErr m =>
        rw [horacle] at hj
        simp only [List.mem_singleton] at hj
        subst hj
        exact ⟨by omega, by simp only [List.length_cons]; omega⟩
      | svcErr m =>
        rw [horacle] at hj
        dsimp only at hj
        by_cases h3 : 3 ≤ consec + 1
        · rw [if_pos h3] at hj
          simp only [List.mem_singleton] at hj
          subst hj
          exact ⟨by omega, by simp only [List.length_cons]; omega⟩
        · rw [if_neg h3] at hj
          simp only [List.mem_cons] at hj
          rcases hj with h | h
          · subst h; exact ⟨by omega, by simp only [List.length_cons]; omega⟩
          · have := ih (i + 1) (consec + 1) j h
            exact ⟨by omega, by simp only [List.length_cons]; omega⟩
      | genErr m =>
        rw [horacle] at hj
        dsimp only at hj
        by_cases h3 : 3 ≤ consec + 1
        · rw [if_pos h3] at hj
          simp only [List.mem_singleton] at hj
          subst hj
          exact ⟨by omega, by simp only [List.length_cons]; omega⟩
        · rw [if_neg h3] at hj
          simp only [List.mem_cons] at hj
          rcases hj with h | h
          · subst h; exact ⟨by omega, by simp only [List.length_cons]; omega⟩
          · have := ih (i + 1) (consec + 1) j h
            exact ⟨by omega, by simp only [List.length_cons]; omega⟩

/-- C2: in both per-unit loops (sentence mode and chunked mode are the
two instances of `loopGo`), if the adapter raises `ConnectionError` at a
unit `i` that the loop actually calls, then: no adapter call happens for
any unit `j > i` (the loop stops), the output keeps the original text of
unit `i` and of every later unit, unit `i` is recorded as failed with
the adapter's message, and every later unit is recorded with the
`"因连接错误跳过处理: "` annotation. -/
theorem c2_connection_fatal (cfg : LoopCfg) (oracle : Nat → List Char → AdapterResult)
    (units : List (List Char)) (i0 consec i : Nat) (m : List Char)
    (hcall : i ∈ (loopGo cfg oracle i0 consec units).2.2)
    (horacle : ∀ x, oracle i x = .connErr m) :
    (∀ j ∈ (loopGo cfg oracle i0 consec units).2.2, j ≤ i) ∧
    (loopGo cfg oracle i0 consec units).1.drop (i - i0) = units.drop (i - i0) ∧
    (i + 1, m) ∈ (loopGo cfg oracle i0 consec units).2.1 ∧
    (∀ j, i < j → j < i0 + units.length →
      (j + 1, connSkipMsg m) ∈ (loopGo cfg oracle i0 consec units).2.1) := by
  induction units generalizing i0 consec with
  | nil => simp [loopGo] at hcall
  | cons u rest ih =>
    simp only [loopGo] at hcall ⊢
    by_cases hb : (cfg.skipBlank && (pyStrip u).isEmpty) = true
    · rw [if_pos hb] at hcall ⊢
      have hge := (loopGo_calls_bound cfg oracle rest (i0 + 1) consec i hcall).1
      obtain ⟨h1, h2, h3, h4⟩ := ih (i0 + 1) consec hcall
      refine ⟨h1, ?_, h3, ?_⟩
      · have hdrop : i - i0 = (i - (i0 + 1)) + 1 := by omega
        rw [hdrop]
        simpa using h2
      · intro j hj1 hj2
        exact h4 j hj1 (by simp only [List.length_cons] at hj2; omega)
    · rw [if_neg hb] at hcall ⊢
      cases horacle2 : oracle i0 (cfg.transform u) with
      | ok out =>
        rw [horacle2] at hcall
        dsimp only at hcall ⊢
        have hmem : i ∈ (loopGo cfg oracle (i0 + 1) 0 rest).2.2 := by
          rcases List.mem_cons.1 hcall with h | h
          · subst h
            rw [horacle (cfg.transform u)] at horacle2
            exact AdapterResult.noConfusion horacle2
          · exact h
        have hge := (loopGo_calls_bound cfg oracle rest (i0 + 1) 0 i hmem).1
        obtain ⟨h1, h2, h3, h4⟩ := ih (i0 + 1) 0 hmem
        refine ⟨?_, ?_, h3, ?_⟩
        · intro j hj
          rcases List.mem_cons.1 hj with h | h
          · omega
          · exact h1 j h
        · have hdrop : i - i0 = (i - (i0 + 1)) + 1 := by omega
          rw [hdrop]
          simpa using h2
        · intro j hj1 hj2
          exact h4 j hj1 (by simp only [List.length_cons] at hj2; omega)
      | connErr m2 =>
        rw [horacle2] at hcall
        dsimp only at hcall ⊢
        have hi : i = i0 := List.mem_singleton.1 hcall
        subst hi
        rw [horacle (cfg.transform u)] at horacle2
        have hm : m = m2 := by
          injection horacle2
        subst hm
        refine ⟨?_, by simp, List.mem_cons_self _ _, ?_⟩
        · intro j hj
          rw [List.mem_singleton.1 hj]
        · intro j hj1 hj2
          refine List.mem_cons_of_mem _ (skipEntries_mem _ rest (i + 1) j (by omega) ?_)
          simp only [List.length_cons] at hj2
          omega
      | svcErr m2 =>
        rw [horacle2] at hcall
        dsimp only at hcall ⊢
        by_cases h3c : 3 ≤ consec + 1
        · rw [if_pos h3c] at hcall ⊢
          dsimp only at hcall ⊢
          have hi : i = i0 := List.mem_singleton.1 hcall
          subst hi
          rw [horacle (cfg.transform u)] at horacle2
          exact AdapterResult.noConfusion horacle2
        · rw [if_neg h3c] at hcall ⊢
          dsimp only at hcall ⊢
          have hmem : i ∈ (loopGo cfg oracle (i0 + 1) (consec + 1) rest).2.2 := by
            rcases List.mem_cons.1 hcall with h | h
            · subst h
              rw [horacle (cfg.transform u)] at horacle2
              exact AdapterResult.noConfusion horacle2
            · exact h
          have hge := (loopGo_calls_bound cfg oracle rest (i0 + 1) (consec + 1) i hmem).1
          obtain ⟨h1, h2, h3, h4⟩ := ih (i0 + 1) (consec + 1) hmem
          refine ⟨?_, ?_, List.mem_cons_of_mem _ h3, ?_⟩
          · intro j hj
            rcases List.mem_cons.1 hj with h | h
            · omega
            · exact h1 j h
          · have hdrop : i - i0 = (i - (i0 + 1)) + 1 := by omega
            rw [hdrop]
            simpa using h2
          · intro j hj1 hj2
            exact List.mem_cons_of_mem _
              (h4 j hj1 (by simp only [List.length_cons] at hj2; omega))
      | genErr m2 =>
        rw [horacle2] at hcall
        dsimp only at hcall ⊢
        by_cases h3c : 3 ≤ consec + 1
        · rw [if_pos h3c] at hcall ⊢
          dsimp only at hcall ⊢
          have hi : i = i0 := List.mem_singleton.1 hcall
          subst hi
          rw [horacle (cfg.transform u)] at horacle2
          exact AdapterResult.noConfusion horacle2
        · rw [if_neg h3c] at hcall ⊢
          dsimp only at hcall ⊢
          have hmem : i ∈ (loopGo cfg oracle (i0 + 1) (consec + 1) rest).2.2 := by
            rcases List.mem_cons.1 hcall with h | h
            · subst h
              rw [horacle (cfg.transform u)] at horacle2
              exact AdapterResult.noConfusion horacle2
            · exact h
          have hge := (loopGo_calls_bound cfg oracle rest (i0 + 1) (consec + 1) i hmem).1
          obtain ⟨h1, h2, h3, h4⟩ := ih (i0 + 1) (consec + 1) hmem
          refine ⟨?_, ?_, List.mem_cons_of_mem _ h3, ?_⟩
          · intro j hj
            rcases List.mem_cons.1 hj with h | h
            · omega
            · exact h1 j h
          · have hdrop : i - i0 = (i - (i0 + 1)) + 1 := by omega
            rw [hdrop]
            simpa using h2
          · intro j hj1 hj2
            exact List.mem_cons_of_mem _
              (h4 j hj1 (by simp only [List.length_cons] at hj2; omega))

theorem c2_witness :
    (∀ j ∈ (loopGo chunkedCfg (fun i x => if i = 1 then .connErr "boom".data else .ok x)
        0 0 ["aa".data, "bb".data, "cc".data]).2.2, j ≤ 1) ∧
    (loopGo chunkedCfg (fun i x => if i = 1 then .connErr "boom".data else .ok x)
        0 0 ["aa".data, "bb".data, "cc".data]).1.drop 1 = ["bb".data, "cc".data] ∧
    (2, "boom".data) ∈ (loopGo chunkedCfg
        (fun i x => if i = 1 then .connErr "boom".data else .ok x)
        0 0 ["aa".data, "bb".data, "cc".data]).2.1 ∧
    (3, connSkipMsg "boom".data) ∈ (loopGo chunkedCfg
        (fun i x => if i = 1 then .connErr "boom".data else .ok x)
        0 0 ["aa".data, "bb".data, "cc".data]).2.1 := by
  have h := c2_connection_fatal chunkedCfg
    (fun i x => if i = 1 then .connErr "boom".data else .ok x)
    ["aa".data, "bb".data, "cc".data] 0 0 1 "boom".data (by decide)
    (fun x => rfl)
  exact ⟨h.1, h.2.1, h.2.2.1, h.2.2.2 2 (by omega) (by decide)⟩

/-- `ServiceUnavailableError` or a generic exception: the failures that
advance the consecutive-failure counter. -/
def isTransient (r : AdapterResult) : Prop :=
  (∃ m, r = .svcErr m) ∨ (∃ m, r = .genErr m)

/-- Breaker step 3: a transient failure of the head unit with the
counter already at 2 stops the loop at once. -/
theorem loop_stop_head (cfg : LoopCfg) (oracle : Nat → List Char → AdapterResult)
    (units : List (List Char)) (i0 consec : Nat)
    (ha : i0 ∈ (loopGo cfg oracle i0 consec units).2.2)
    (htr : ∀ x, isTransient (oracle i0 x)) (hc : 2 ≤ consec) :
    (loopGo cfg oracle i0 consec units).2.2 = [i0] ∧
    (loopGo cfg oracle i0 consec units).1 = units ∧
    (∀ j, i0 ≤ j → j < i0 + units.length →
      ∃ msg, (j + 1, msg) ∈ (loopGo cfg oracle i0 consec units).2.1) := by
  match units with
  | [] => simp [loopGo] at ha
  | u :: rest =>
    simp only [loopGo] at ha ⊢
    by_cases hbk : (cfg.skipBlank && (pyStrip u).isEmpty) = true
    · rw [if_pos hbk] at ha
      dsimp only at ha
      have := (loopGo_calls_bound cfg oracle rest (i0 + 1) consec i0 ha).1
      omega
    · rw [if_neg hbk] at ha ⊢
      cases horacle2 : oracle i0 (cfg.transform u) with
      | ok out =>
        rcases htr (cfg.transform u) with ⟨m, h⟩ | ⟨m, h⟩ <;>
          (rw [horacle2] at h; exact AdapterResult.noConfusion h)
      | connErr m2 =>
        rcases htr (cfg.transform u) with ⟨m, h⟩ | ⟨m, h⟩ <;>
          (rw [horacle2] at h; exact AdapterResult.noConfusion h)
      | svcErr m2 =>
        dsimp only
        rw [if_pos (by omega : 3 ≤ consec + 1)]
        refine ⟨rfl, rfl, ?_⟩
        intro j hj1 hj2
        by_cases hj : j = i0
        · exact ⟨m2, by rw [hj]; exact List.mem_cons_self _ _⟩
        · refine ⟨cfg.svcSkipMsg, List.mem_cons_of_mem _
            (skipEntries_mem _ rest (i0 + 1) j (by omega) ?_)⟩
          simp only [List.length_cons] at hj2
          omega
      | genErr m2 =>
        dsimp only
        rw [if_pos (by omega : 3 ≤ consec + 1)]
        refine ⟨rfl, rfl, ?_⟩
        intro j hj1 hj2
        by_cases hj : j = i0
        · exact ⟨m2, by rw [hj]; exact List.mem_cons_self _ _⟩
        · refine ⟨cfg.genSkipMsg, List.mem_cons_of_mem _
            (skipEntries_mem _ rest (i0 + 1) j (by omega) ?_)⟩
          simp only [List.length_cons] at hj2
          omega

/-- Breaker steps 2-3: transient failures of the two leading units with
the counter already at 1 stop the loop by the second unit. -/
theorem loop_stop_head2 (cfg : LoopCfg) (oracle : Nat → List Char → AdapterResult)
    (units : List (List Char)) (i0 consec : Nat)
    (ha : i0 ∈ (loopGo cfg oracle i0 consec units).2.2)
    (hb : i0 + 1 ∈ (loopGo cfg oracle i0 consec units).2.2)
    (htr0 : ∀ x, isTransient (oracle i0 x))
    (htr1 : ∀ x, isTransient (oracle (i0 + 1) x)) (hc : 1 ≤ consec) :
    (∀ j ∈ (loopGo cfg oracle i0 consec units).2.2, j ≤ i0 + 1) ∧
    (loopGo cfg oracle i0 consec units).1 = units ∧
    (∀ j, i0 ≤ j → j < i0 + units.length →
      ∃ msg, (j + 1, msg) ∈ (loopGo cfg oracle i0 consec units).2.1) := by
  match units with
  | [] => simp [loopGo] at ha
  | u :: rest =>
    simp only [loopGo] at ha hb ⊢
    by_cases hbk : (cfg.skipBlank && (pyStrip u).isEmpty) = true
    · rw [if_pos hbk] at ha
      dsimp only at ha
      have := (loopGo_calls_bound cfg oracle rest (i0 + 1) consec i0 ha).1
      omega
    · rw [if_neg hbk] at ha hb ⊢
      cases horacle2 : oracle i0 (cfg.transform u) with
      | ok out =>
        rcases htr0 (cfg.transform u) with ⟨m, h⟩ | ⟨m, h⟩ <;>
          (rw [horacle2] at h; exact AdapterResult.noConfusion h)
      | connErr m2 =>
        rcases htr0 (cfg.transform u) with ⟨m, h⟩ | ⟨m, h⟩ <;>
          (rw [horacle2] at h; exact AdapterResult.noConfusion h)
      | svcErr m2 =>
        rw [horacle2] at hb
        dsimp only at hb ⊢
        by_cases h3c : 3 ≤ consec + 1
        · rw [if_pos h3c] at hb
          dsimp only at hb
          have := List.mem_singleton.1 hb
          omega
        · rw [if_neg h3c] at hb ⊢
          dsimp only at hb ⊢
          have hb2 : i0 + 1 ∈ (loopGo cfg oracle (i0 + 1) (consec + 1) rest).2.2 := by
            rcases List.mem_cons.1 hb with h | h
            · omega
            · exact h
          obtain ⟨k1, k2, k3⟩ := loop_stop_head cfg oracle rest (i0 + 1) (consec + 1)
            hb2 htr1 (by omega)
          refine ⟨?_, ?_, ?_⟩
          · intro j hj
            rcases List.mem_cons.1 hj with h | h
            · omega
            · rw [k1] at h
              rw [List.mem_singleton.1 h]
          · rw [k2]
          · intro j hj1 hj2
            by_cases hj : j = i0
            · exact ⟨m2, by rw [hj]; exact List.mem_cons_self _ _⟩
            · obtain ⟨msg, hmsg⟩ := k3 j (by omega)
                (by simp only [List.length_cons] at hj2; omega)
              exact ⟨msg, List.mem_cons_of_mem _ hmsg⟩
      | genErr m2 =>
        rw [horacle2] at hb
        dsimp only at hb ⊢
        by_cases h3c : 3 ≤ consec + 1
        · rw [if_pos h3c] at hb
          dsimp only at hb
          have := List.mem_singleton.1 hb
          omega
        · rw [if_neg h3c] at hb ⊢
          dsimp only at hb ⊢
          have hb2 : i0 + 1 ∈ (loopGo cfg oracle (i0 + 1) (consec + 1) rest).2.2 := by
            rcases List.mem_cons.1 hb with h | h
            · omega
            · exact h
          obtain ⟨k1, k2, k3⟩ := loop_stop_head cfg oracle rest (i0 + 1) (consec + 1)
            hb2 htr1 (by omega)
          refine ⟨?_, ?_, ?_⟩
          · intro j hj
            rcases List.mem_cons.1 hj with h | h
            · omega
            · rw [k1] at h
              rw [List.mem_singleton.1 h]
          · rw [k2]
          · intro j hj1 hj2
            by_cases hj : j = i0
            · exact ⟨m2, by rw [hj]; exact List.mem_cons_self _ _⟩
            · obtain ⟨msg, hmsg⟩ := k3 j (by omega)
                (by simp only [List.length_cons] at hj2; omega)
              exact ⟨msg, List.mem_cons_of_mem _ hmsg⟩

/-- Breaker steps 1-3: transient failures of the three leading units
stop the loop by the third unit, whatever the incoming counter. -/
theorem loop_stop_head3 (cfg : LoopCfg) (oracle : Nat → List Char → AdapterResult)
    (units : List (List Char)) (i0 consec : Nat)
    (ha : i0 ∈ (loopGo cfg oracle i0 consec units).2.2)
    (hb : i0 + 1 ∈ (loopGo cfg oracle i0 consec units).2.2)
    (hc : i0 + 2 ∈ (loopGo cfg oracle i0 consec units).2.2)
    (htr0 : ∀ x, isTransient (oracle i0 x))
    (htr1 : ∀ x, isTransient (oracle (i0 + 1) x))
    (htr2 : ∀ x, isTransient (oracle (i0 + 2) x)) :
    (∀ j ∈ (loopGo cfg oracle i0 consec units).2.2, j ≤ i0 + 2) ∧
    (loopGo cfg oracle i0 consec units).1 = units ∧
    (∀ j, i0 ≤ j → j < i0 + units.length →
      ∃ msg, (j + 1, msg) ∈ (loopGo cfg oracle i0 consec units).2.1) := by
  match units with
  | [] => simp [loopGo] at ha
  | u :: rest =>
    simp only [loopGo] at ha hb hc ⊢
    by_cases hbk : (cfg.skipBlank && (pyStrip u).isEmpty) = true
    · rw [if_pos hbk] at ha
      dsimp only at ha
      have := (loopGo_calls_bound cfg oracle rest (i0 + 1) consec i0 ha).1
      omega
    · rw [if_neg hbk] at ha hb hc ⊢
      cases horacle2 : oracle i0 (cfg.transform u) with
      | ok out =>
        rcases htr0 (cfg.transform u) with ⟨m, h⟩ | ⟨m, h⟩ <;>
          (rw [horacle2] at h; exact AdapterResult.noConfusion h)
      | connErr m2 =>
        rcases htr0 (cfg.transform u) with ⟨m, h⟩ | ⟨m, h⟩ <;>
          (rw [horacle2] at h; exact AdapterResult.noConfusion h)
      | svcErr m2 =>
        rw [horacle2] at hb hc
        dsimp only at hb hc ⊢
        by_cases h3c : 3 ≤ consec + 1
        · rw [if_pos h3c] at hb
          dsimp only at hb
          have := List.mem_singleton.1 hb
          omega
        · rw [if_neg h3c] at hb hc ⊢
          dsimp only at hb hc ⊢
          have hb2 : i0 + 1 ∈ (loopGo cfg oracle (i0 + 1) (consec + 1) rest).2.2 := by
            rcases List.mem_cons.1 hb with h | h
            · omega
            · exact h
          have hc2 : i0 + 2 ∈ (loopGo cfg oracle (i0 + 1) (consec + 1) rest).2.2 := by
            rcases List.mem_cons.1 hc with h | h
            · omega
            · exact h
          obtain ⟨k1, k2, k3⟩ := loop_stop_head2 cfg oracle rest (i0 + 1) (consec + 1)
            hb2 hc2 htr1 htr2 (by omega)
          refine ⟨?_, ?_, ?_⟩
          · intro j hj
            rcases List.mem_cons.1 hj with h | h
            · omega
            · exact le_trans (k1 j h) (by omega)
          · rw [k2]
          · intro j hj1 hj2
            by_cases hj : j = i0
            · exact ⟨m2, by rw [hj]; exact List.mem_cons_self _ _⟩
            · obtain ⟨msg, hmsg⟩ := k3 j (by omega)
                (by simp only [List.length_cons] at hj2; omega)
              exact ⟨msg, List.mem_cons_of_mem _ hmsg⟩
      | genErr m2 =>
        rw [horacle2] at hb hc
        dsimp only at hb hc ⊢
        by_cases h3c : 3 ≤ consec + 1
        · rw [if_pos h3c] at hb
          dsimp only at hb
          have := List.mem_singleton.1 hb
          omega
        · rw [if_neg h3c] at hb hc ⊢
          dsimp only at hb hc ⊢
          have hb2 : i0 + 1 ∈ (loopGo cfg oracle (i0 + 1) (consec + 1) rest).2.2 := by
            rcases List.mem_cons.1 hb with h | h
            · omega
            · exact h
          have hc2 : i0 + 2 ∈ (loopGo cfg oracle (i0 + 1) (consec + 1) rest).2.2 := by
            rcases List.mem_cons.1 hc with h | h
            · omega
            · exact h
          obtain ⟨k1, k2, k3⟩ := loop_stop_head2 cfg oracle rest (i0 + 1) (consec + 1)
            hb2 hc2 htr1 htr2 (by omega)
          refine ⟨?_, ?_, ?_⟩
          · intro j hj
            rcases List.mem_cons.1 hj with h | h
            · omega
            · exact le_trans (k1 j h) (by omega)
          · rw [k2]
          · intro j hj1 hj2
            by_cases hj : j = i0
            · exact ⟨m2, by rw [hj]; exact List.mem_cons_self _ _⟩
            · obtain ⟨msg, hmsg⟩ := k3 j (by omega)
                (by simp only [List.length_cons] at hj2; omega)
              exact ⟨msg, List.mem_cons_of_mem _ hmsg⟩

/-- C3: in both per-unit loops, a `ServiceUnavailableError` or generic
adapter failure advances the `consecutive_failures` counter and a
success resets it; whenever three consecutively called units `i`, `i+1`,
`i+2` all fail transiently, the counter reaches 3 there and the engine
performs no adapter call for any unit `j > i+2`, every unit from `i` on
keeps its original text in the output, and every unit from `i` on is
recorded in the failure details. -/
theorem c3_circuit_breaker (cfg : LoopCfg) (oracle : Nat → List Char → AdapterResult)
    (units : List (List Char)) (i0 consec i : Nat)
    (ha : i ∈ (loopGo cfg oracle i0 consec units).2.2)
    (hb : i + 1 ∈ (loopGo cfg oracle i0 consec units).2.2)
    (hc : i + 2 ∈ (loopGo cfg oracle i0 consec units).2.2)
    (ht0 : ∀ x, isTransient (oracle i x))
    (ht1 : ∀ x, isTransient (oracle (i + 1) x))
    (ht2 : ∀ x, isTransient (oracle (i + 2) x)) :
    (∀ j ∈ (loopGo cfg oracle i0 consec units).2.2, j ≤ i + 2) ∧
    (loopGo cfg oracle i0 consec units).1.drop (i - i0) = units.drop (i - i0) ∧
    (∀ j, i ≤ j → j < i0 + units.length →
      ∃ msg, (j + 1, msg) ∈ (loopGo cfg oracle i0 consec units).2.1) := by
  induction units generalizing i0 consec with
  | nil => simp [loopGo] at ha
  | cons u rest ih =>
    by_cases hi : i = i0
    · subst hi
      obtain ⟨k1, k2, k3⟩ := loop_stop_head3 cfg oracle (u :: rest) i consec
        ha hb hc ht0 ht1 ht2
      exact ⟨k1, by rw [k2], k3⟩
    · simp only [loopGo] at ha hb hc ⊢
      by_cases hbk : (cfg.skipBlank && (pyStrip u).isEmpty) = true
      · rw [if_pos hbk] at ha hb hc ⊢
        dsimp only at ha hb hc ⊢
        have hgei := (loopGo_calls_bound cfg oracle rest (i0 + 1) consec i ha).1
        obtain ⟨k1, k2, k3⟩ := ih (i0 + 1) consec ha hb hc
        refine ⟨k1, ?_, ?_⟩
        · have hdrop : i - i0 = (i - (i0 + 1)) + 1 := by omega
          rw [hdrop]
          simpa using k2
        · intro j hj1 hj2
          exact k3 j hj1 (by simp only [List.length_cons] at hj2; omega)
      · rw [if_neg hbk] at ha hb hc ⊢
        cases horacle2 : oracle i0 (cfg.transform u) with
        | ok out =>
          rw [horacle2] at ha hb hc
          dsimp only at ha hb hc ⊢
          have ha2 : i ∈ (loopGo cfg oracle (i0 + 1) 0 rest).2.2 := by
            rcases List.mem_cons.1 ha with h | h
            · omega
            · exact h
          have hgei := (loopGo_calls_bound cfg oracle rest (i0 + 1) 0 i ha2).1
          have hb2 : i + 1 ∈ (loopGo cfg oracle (i0 + 1) 0 rest).2.2 := by
            rcases List.mem_cons.1 hb with h | h
            · omega
            · exact h
          have hc2 : i + 2 ∈ (loopGo cfg oracle (i0 + 1) 0 rest).2.2 := by
            rcases List.mem_cons.1 hc with h | h
            · omega
            · exact h
          obtain ⟨k1, k2, k3⟩ := ih (i0 + 1) 0 ha2 hb2 hc2
          refine ⟨?_, ?_, ?_⟩
          · intro j hj
            rcases List.mem_cons.1 hj with h | h
            · omega
            · exact k1 j h
          · have hdrop : i - i0 = (i - (i0 + 1)) + 1 := by omega
            rw [hdrop]
            simpa using k2
          · intro j hj1 hj2
            exact k3 j hj1 (by simp only [List.length_cons] at hj2; omega)
        | connErr m2 =>
          rw [horacle2] at ha
          dsimp only at ha
          exact absurd (List.mem_singleton.1 ha) hi
        | svcErr m2 =>
          rw [horacle2] at ha hb hc
          dsimp only at ha hb hc ⊢
          by_cases h3c : 3 ≤ consec + 1
          · rw [if_pos h3c] at ha
            dsimp only at ha
            exact absurd (List.mem_singleton.1 ha) hi
          · rw [if_neg h3c] at ha hb hc ⊢
            dsimp only at ha hb hc ⊢
            have ha2 : i ∈ (loopGo cfg oracle (i0 + 1) (consec + 1) rest).2.2 := by
              rcases List.mem_cons.1 ha with h | h
              · omega
              · exact h
            have hgei := (loopGo_calls_bound cfg oracle rest (i0 + 1) (consec + 1) i ha2).1
            have hb2 : i + 1 ∈ (loopGo cfg oracle (i0 + 1) (consec + 1) rest).2.2 := by
              rcases List.mem_cons.1 hb with h | h
              · omega
              · exact h
            have hc2 : i + 2 ∈ (loopGo cfg oracle (i0 + 1) (consec + 1) rest).2.2 := by
              rcases List.mem_cons.1 hc with h | h
              · omega
              · exact h
            obtain ⟨k1, k2, k3⟩ := ih (i0 + 1) (consec + 1) ha2 hb2 hc2
            refine ⟨?_, ?_, ?_⟩
            · intro j hj
              rcases List.mem_cons.1 hj with h | h
              · omega
              · exact k1 j h
            · have hdrop : i - i0 = (i - (i0 + 1)) + 1 := by omega
              rw [hdrop]
              simpa using k2
            · intro j hj1 hj2
              obtain ⟨msg, hmsg⟩ := k3 j hj1
                (by simp only [List.length_cons] at hj2; omega)
              exact ⟨msg, List.mem_cons_of_mem _ hmsg⟩
        | genErr m2 =>
          rw [horacle2] at ha hb hc
          dsimp only at ha hb hc ⊢
          by_cases h3c : 3 ≤ consec + 1
          · rw [if_pos h3c] at ha
            dsimp only at ha
            exact absurd (List.mem_singleton.1 ha) hi
          · rw [if_neg h3c] at ha hb hc ⊢
            dsimp only at ha hb hc ⊢
            have ha2 : i ∈ (loopGo cfg oracle (i0 + 1) (consec + 1) rest).2.2 := by
              rcases List.mem_cons.1 ha with h | h
              · omega
              · exact h
            have hgei := (loopGo_calls_bound cfg oracle rest (i0 + 1) (consec + 1) i ha2).1
            have hb2 : i + 1 ∈ (loopGo cfg oracle (i0 + 1) (consec + 1) rest).2.2 := by
              rcases List.mem_cons.1 hb with h | h
              · omega
              · exact h
            have hc2 : i + 2 ∈ (loopGo cfg oracle (i0 + 1) (consec + 1) rest).2.2 := by
              rcases List.mem_cons.1 hc with h | h
              · omega
              · exact h
            obtain ⟨k1, k2, k3⟩ := ih (i0 + 1) (consec + 1) ha2 hb2 hc2
            refine ⟨?_, ?_, ?_⟩
            · intro j hj
              rcases List.mem_cons.1 hj with h | h
              · omega
              · exact k1 j h
            · have hdrop : i - i0 = (i - (i0 + 1)) + 1 := by omega
              rw [hdrop]
              simpa using k2
            · intro j hj1 hj2
              obtain ⟨msg, hmsg⟩ := k3 j hj1
                (by simp only [List.length_cons] at hj2; omega)
              exact ⟨msg, List.mem_cons_of_mem _ hmsg⟩

theorem c3_witness :
    (∀ j ∈ (loopGo chunkedCfg
        (fun i _ => if i = 0 then .ok "z".data else .svcErr "u".data)
        0 0 ["a1".data, "b2".data, "c3".data, "d4".data, "e5".data, "f6".data]).2.2,
      j ≤ 3) ∧
    (loopGo chunkedCfg (fun i _ => if i = 0 then .ok "z".data else .svcErr "u".data)
        0 0 ["a1".data, "b2".data, "c3".data, "d4".data, "e5".data, "f6".data]).1.drop 1 =
      ["b2".data, "c3".data, "d4".data, "e5".data, "f6".data] ∧
    (∃ msg, (5, msg) ∈ (loopGo chunkedCfg
        (fun i _ => if i = 0 then .ok "z".data else .svcErr "u".data)
        0 0 ["a1".data, "b2".data, "c3".data, "d4".data, "e5".data, "f6".data]).2.1) := by
  have h := c3_circuit_breaker chunkedCfg
    (fun i _ => if i = 0 then .ok "z".data else .svcErr "u".data)
    ["a1".data, "b2".data, "c3".data, "d4".data, "e5".data, "f6".data] 0 0 1
    (by decide) (by decide) (by decide)
    (fun x => Or.inl ⟨"u".data, rfl⟩) (fun x => Or.inl ⟨"u".data, rfl⟩)
    (fun x => Or.inl ⟨"u".data, rfl⟩)
  exact ⟨h.1, h.2.1, h.2.2 4 (by omega) (by decide)⟩

/-! ## Sentence-mode byte preservation (C5) -/

/-- Join with `'\n'`, the inverse of `pySplitChar '\n'`. -/
def joinNl : List (List Char) → List Char
  | [] => []
  | [l] => l
  | l :: rest => l ++ '\n' :: joinNl rest

/-- The endings recorded when every line is kept whole: `'\n'` after
every line but the last. -/
def nlEndings {α : Type} : List α → List (List Char)
  | [] => []
  | [_] => [[]]
  | _ :: rest => ['\n'] :: nlEndings rest

theorem pySplitChar_ne_nil (sep : Char) (t : List Char) : pySplitChar sep t ≠ [] := by
  cases t with
  | nil => simp [pySplitChar]
  | cons c rest =>
    simp only [pySplitChar]
    by_cases h : c = sep
    · simp [h]
    · rw [if_neg h]
      cases pySplitChar sep rest <;> simp

theorem joinNl_pySplitChar (t : List Char) : joinNl (pySplitChar '\n' t) = t := by
  induction t with
  | nil => rfl
  | cons c rest ih =>
    simp only [pySplitChar]
    by_cases h : c = '\n'
    · rw [if_pos h]
      subst h
      cases hs : pySplitChar '\n' rest with
      | nil => exact absurd hs (pySplitChar_ne_nil _ _)
      | cons s ss =>
        rw [hs] at ih
        simpa [joinNl] using ih
    · rw [if_neg h]
      cases hs : pySplitChar '\n' rest with
      | nil => exact absurd hs (pySplitChar_ne_nil _ _)
      | cons s ss =>
        rw [hs] at ih
        cases ss with
        | nil => simpa [joinNl] using ih
        | cons s2 ss2 => simpa [joinNl] using ih

theorem nlEndings_length {α : Type} (l : List α) : (nlEndings l).length = l.length := by
  induction l with
  | nil => rfl
  | cons a rest ih =>
    cases rest with
    | nil => rfl
    | cons b rest2 => simpa [nlEndings] using ih

/-- All-whitespace together with being `rstrip`-fixed forces the empty
string. -/
theorem eq_nil_of_rstrip_fixed {l : List Char} (hr : pyRstrip l = l)
    (hs : pyStrip l = []) : l = [] := by
  rw [← hr]
  exact (pyRstrip_eq_nil_iff l).2 ((pyStrip_eq_nil_iff l).1 hs)

/-- A line without trailing whitespace that fits the limit is kept whole
with its own ending. -/
theorem processLine_id (maxLen : Option Nat) (line : List Char) (hasNl : Bool)
    (hr : pyRstrip line = line) (hf : fits maxLen line.length = true) :
    processLine maxLen line hasNl = ([line], [if hasNl then ['\n'] else []]) := by
  unfold processLine
  rw [hr]
  by_cases hsnil : pyStrip line = []
  · have h0 : line = [] := eq_nil_of_rstrip_fixed hr hsnil
    subst h0
    simp [hsnil]
  · rw [if_neg (by simpa [List.isEmpty_iff] using hsnil), if_pos hf]

theorem sbsGo_id (maxLen : Option Nat) :
    ∀ lines : List (List Char),
      (∀ l ∈ lines, pyRstrip l = l ∧ fits maxLen l.length = true) →
      sbsGo maxLen lines = (lines, nlEndings lines) := by
  intro lines
  induction lines with
  | nil => intro _; rfl
  | cons line rest ih =>
    intro h
    obtain ⟨hr, hf⟩ := h line (List.mem_cons_self _ _)
    cases rest with
    | nil =>
      show processLine maxLen line false = ([line], nlEndings [line])
      exact processLine_id maxLen line false hr hf
    | cons l2 rest2 =>
      have hdef : sbsGo maxLen (line :: l2 :: rest2) =
          ((processLine maxLen line true).1 ++ (sbsGo maxLen (l2 :: rest2)).1,
           (processLine maxLen line true).2 ++ (sbsGo maxLen (l2 :: rest2)).2) := rfl
      rw [hdef, processLine_id maxLen line true hr hf,
        ih (fun l hl => h l (List.mem_cons_of_mem _ hl))]
      simp [nlEndings]

theorem interleave_nlEndings :
    ∀ lines : List (List Char), interleave lines (nlEndings lines) = joinNl lines := by
  intro lines
  induction lines with
  | nil => rfl
  | cons l rest ih =>
    cases rest with
    | nil => simp [interleave, nlEndings, joinNl]
    | cons l2 rest2 =>
      show l ++ ['\n'] ++ interleave (l2 :: rest2) (nlEndings (l2 :: rest2)) =
        l ++ '\n' :: joinNl (l2 :: rest2)
      rw [ih]
      simp

/-- An identity adapter leaves the loop with the unit list unchanged and
no failures. -/
theorem loopGo_identity (cfg : LoopCfg) (oracle : Nat → List Char → AdapterResult)
    (hid : ∀ i s, oracle i (cfg.transform s) = .ok s) :
    ∀ (units : List (List Char)) (i0 consec : Nat),
      (loopGo cfg oracle i0 consec units).1 = units ∧
      (loopGo cfg oracle i0 consec units).2.1 = [] := by
  intro units
  induction units with
  | nil => intro i0 consec; exact ⟨rfl, rfl⟩
  | cons u rest ih =>
    intro i0 consec
    simp only [loopGo]
    by_cases hbk : (cfg.skipBlank && (pyStrip u).isEmpty) = true
    · rw [if_pos hbk]
      obtain ⟨h1, h2⟩ := ih (i0 + 1) consec
      exact ⟨by simp [h1], by simp [h2]⟩
    · rw [if_neg hbk, hid i0 u]
      obtain ⟨h1, h2⟩ := ih (i0 + 1) 0
      exact ⟨by simp [h1], by simp [h2]⟩

/-- C5 counterexample: on `"a \nb"` (a line with a trailing space) with
an adapter that returns every sentence unchanged, sentence mode returns
`"a\nb"`: `_split_by_sentences` rstrips each line, so the output is not
byte-for-byte equal to the input. -/
theorem c5_counterexample :
    correctSentenceMode (fun _ x => .ok x) false id (some 50) "a \nb".data =
      (.ret ⟨"a \nb".data, "a\nb".data, 2, 2, some 0, some false, some none⟩, [0, 1]) ∧
    "a\nb".data ≠ "a \nb".data := by
  exact ⟨rfl, by decide⟩

/-- C5 (amended): in sentence mode, if the adapter returns every
sentence unchanged, the engine's output equals the input byte-for-byte
provided no line of the input carries trailing whitespace (the split
rstrips every line) and no line exceeds the per-sentence length limit
(over-long lines are re-split with further loss possible); the recorded
line endings then reconstruct the original exactly. -/
theorem c5_sentence_mode_preservation (oracle : Nat → List Char → AdapterResult)
    (usePyc : Bool) (pre : List Char → List Char) (maxLen : Option Nat)
    (text : List Char) (h0 : text ≠ [])
    (hlines : ∀ l ∈ pySplitChar '\n' text,
      pyRstrip l = l ∧ fits maxLen l.length = true)
    (hid : ∀ i s, oracle i ((sentenceCfg usePyc pre).transform s) = .ok s) :
    ∃ r k, correctSentenceMode oracle usePyc pre maxLen text = (.ret r, k) ∧
      r.corrected = text := by
  have hsplit : splitBySentences maxLen text =
      (pySplitChar '\n' text, nlEndings (pySplitChar '\n' text)) := by
    unfold splitBySentences
    rw [if_neg (by simpa [List.isEmpty_iff] using h0)]
    rw [sbsGo_id maxLen (pySplitChar '\n' text) hlines]
    rw [if_neg (by
      simpa [List.isEmpty_iff] using pySplitChar_ne_nil '\n' text)]
    rw [nlEndings_length]
    simp
  obtain ⟨hl1, hl2⟩ := loopGo_identity (sentenceCfg usePyc pre) oracle hid
    (pySplitChar '\n' text) 0 0
  have hne : (pySplitChar '\n' text).length ≠ 0 := by
    simpa [List.length_eq_zero] using pySplitChar_ne_nil '\n' text
  refine ⟨⟨text, interleave (pySplitChar '\n' text) (nlEndings (pySplitChar '\n' text)),
    ((pySplitChar '\n' text).filter fun x => !(pyStrip x).isEmpty).length,
    (pySplitChar '\n' text).length, some 0, some false, some none⟩,
    (loopGo (sentenceCfg usePyc pre) oracle 0 0 (pySplitChar '\n' text)).2.2, ?_, ?_⟩
  · unfold correctSentenceMode
    rw [hsplit]
    dsimp only
    rw [if_neg (by simpa [List.isEmpty_iff] using pySplitChar_ne_nil '\n' text)]
    rw [hl2, hl1]
    rw [if_neg (by simpa using fun h => hne h.symm)]
    rfl
  · dsimp only
    rw [interleave_nlEndings, joinNl_pySplitChar]

theorem c5_witness :
    ∃ r k, correctSentenceMode (fun _ x => .ok x) false id (some 50) "ab\ncd".data =
      (.ret r, k) ∧ r.corrected = "ab\ncd".data :=
  c5_sentence_mode_preservation (fun _ x => .ok x) false id (some 50) "ab\ncd".data
    (by decide) (by decide) (fun i s => rfl)

/-- With an adapter that fails generically on every call, every
non-skipped unit fails: the loop keeps all originals and records one
failure entry per unit. -/
theorem loopGo_all_genErr (cfg : LoopCfg) (oracle : Nat → List Char → AdapterResult)
    (E : Nat → List Char) (hE : ∀ i x, oracle i x = .genErr (E i)) :
    ∀ (units : List (List Char)) (i0 consec : Nat),
      (∀ u ∈ units, cfg.skipBlank = true → pyStrip u ≠ []) →
      (loopGo cfg oracle i0 consec units).1 = units ∧
      (loopGo cfg oracle i0 consec units).2.1.length = units.length := by
  intro units
  induction units with
  | nil => intro i0 consec _; exact ⟨rfl, rfl⟩
  | cons u rest ih =>
    intro i0 consec hnb
    simp only [loopGo]
    have hbk : ¬ (cfg.skipBlank && (pyStrip u).isEmpty) = true := by
      intro h
      have h12 : cfg.skipBlank = true ∧ (pyStrip u).isEmpty = true := by
        simpa using h
      exact hnb u (List.mem_cons_self _ _) h12.1 (List.isEmpty_iff.1 h12.2)
    rw [if_neg hbk, hE i0 (cfg.transform u)]
    dsimp only
    by_cases h3c : 3 ≤ consec + 1
    · rw [if_pos h3c]
      refine ⟨rfl, ?_⟩
      simp [skipEntries_length]
    · rw [if_neg h3c]
      obtain ⟨h1, h2⟩ := ih (i0 + 1) (consec + 1)
        (fun v hv => hnb v (List.mem_cons_of_mem _ hv))
      exact ⟨by simp [h1], by simp [h2]⟩

/-- For a non-empty text the sentence split never yields an empty unit
list (the source falls back to `([text], [''])`). -/
theorem splitBySentences_fst_ne_nil (maxLen : Option Nat) (text : List Char)
    (h0 : text ≠ []) : (splitBySentences maxLen text).1 ≠ [] := by
  unfold splitBySentences
  rw [if_neg (by simpa [List.isEmpty_iff] using h0)]
  dsimp only
  by_cases h : (sbsGo maxLen (pySplitChar '\n' text)).1.isEmpty = true
  · rw [if_pos h]
    simp
  · rw [if_neg h]
    simpa [List.isEmpty_iff] using h

/-- C8 counterexample: a chunked run with six chunks all failing raises
a terminal error whose message lists all six unit errors — the sixth
entry `"片段 6"` occurs in the message, so the message is not limited to
the first five unit-level errors. -/
theorem c8_counterexample :
    (correctChunked (fun i _ => .genErr ('x' :: natChars i)) 3 0
        "aa\n\nbb\n\ncc\n\ndd\n\nee\n\nff".data).1 =
      .err ("所有片段校对失败: 片段 1: x0; 片段 2: x1; 片段 3: x2; " ++
        "片段 4: 因连续失败跳过处理; 片段 5: 因连续失败跳过处理; " ++
        "片段 6: 因连续失败跳过处理").data ∧
    isSubstring "片段 6".data ("所有片段校对失败: 片段 1: x0; 片段 2: x1; " ++
        "片段 3: x2; 片段 4: 因连续失败跳过处理; 片段 5: 因连续失败跳过处理; " ++
        "片段 6: 因连续失败跳过处理").data = true := by
  exact ⟨rfl, rfl⟩

/-- C8 (amended): for every non-empty unit list where every unit fails,
the engine raises a terminal error instead of returning.  In sentence
mode the message lists at most the first five unit-level errors (it only
depends on `take 5` and the count); in chunked mode the message lists
every unit-level error. -/
theorem c8_all_fail_raises :
    (∀ (oracle : Nat → List Char → AdapterResult) (usePyc : Bool)
        (pre : List Char → List Char) (maxLen : Option Nat) (text : List Char)
        (E : Nat → List Char),
      text ≠ [] →
      (∀ s ∈ (splitBySentences maxLen text).1, pyStrip s ≠ []) →
      (∀ i x, oracle i x = .genErr (E i)) →
      (correctSentenceMode oracle usePyc pre maxLen text).1 =
        .err (sentAllFailMsg
          (loopGo (sentenceCfg usePyc pre) oracle 0 0
            (splitBySentences maxLen text).1).2.1)) ∧
    (∀ f g : List (Nat × List Char), f.take 5 = g.take 5 → f.length = g.length →
      sentAllFailMsg f = sentAllFailMsg g) ∧
    (∀ (oracle : Nat → List Char → AdapterResult) (size ov : Nat)
        (text : List Char) (E : Nat → List Char),
      splitterSplit size ov text ≠ [] →
      (∀ i x, oracle i x = .genErr (E i)) →
      (correctChunked oracle size ov text).1 =
        .err (chunkAllFailMsg
          (loopGo chunkedCfg oracle 0 0 (splitterSplit size ov text)).2.1)) := by
  refine ⟨?_, ?_, ?_⟩
  · intro oracle usePyc pre maxLen text E h0 hnb hE
    have hne := splitBySentences_fst_ne_nil maxLen text h0
    obtain ⟨_, h2⟩ := loopGo_all_genErr (sentenceCfg usePyc pre) oracle E hE
      (splitBySentences maxLen text).1 0 0 (fun u hu _ => hnb u hu)
    unfold correctSentenceMode
    rw [if_neg (by simpa [List.isEmpty_iff] using hne)]
    dsimp only
    rw [if_pos h2]
  · intro f g h5 hlen
    unfold sentAllFailMsg
    rw [h5, hlen]
  · intro oracle size ov text E hne hE
    obtain ⟨_, h2⟩ := loopGo_all_genErr chunkedCfg oracle E hE
      (splitterSplit size ov text) 0 0
      (fun u _ hfalse => absurd hfalse (by simp [chunkedCfg]))
    unfold correctChunked
    rw [if_neg (by simpa [List.isEmpty_iff] using hne)]
    dsimp only
    rw [if_pos h2]

theorem c8_witness :
    (correctSentenceMode (fun i _ => .genErr ('e' :: natChars i)) false id
        (some 50) "ab\ncd".data).1 =
      .err (sentAllFailMsg
        (loopGo (sentenceCfg false id) (fun i _ => .genErr ('e' :: natChars i)) 0 0
          (splitBySentences (some 50) "ab\ncd".data).1).2.1) :=
  c8_all_fail_raises.1 (fun i _ => .genErr ('e' :: natChars i)) false id (some 50)
    "ab\ncd".data (fun i => 'e' :: natChars i) (by decide) (by decide)
    (fun i x => rfl)

/-- C1 counterexample: (a) on empty input the engine returns normally
but the record carries only `original`, `corrected`, `chunks_processed`
and `total_chunks` — `failed_chunks`, `has_failures` and
`failure_details` are absent (`none`); (b) with two sentences of which
the first fails and the second succeeds, exactly one adapter call
returned successfully yet `chunks_processed = 2`: failed units
(substituted by their originals) are counted as processed. -/
theorem c1_counterexample :
    correctSentenceMode (fun _ x => .ok x) false id (some 50) [] =
      (.ret ⟨[], [], 0, 0, none, none, none⟩, []) ∧
    correctSentenceMode (fun i x => if i = 0 then .genErr "E".data else .ok x)
        false id (some 50) "ab\ncd".data =
      (.ret ⟨"ab\ncd".data, "ab\ncd".data, 2, 2, some 1, some true,
        some (some [(1, "E".data)])⟩, [0, 1]) ∧
    (2 : Nat) ≠ 2 - 1 := by
  exact ⟨rfl, rfl, by decide⟩

/-- C1 (amended): whenever the engine's correct operation returns
normally, then — on an empty unit list — the record is exactly
`{original, corrected, chunks_processed = 0, total_chunks = 0}` with the
three failure fields absent, and — on a non-empty unit list — the record
carries all of `total_chunks`, `failed_chunks`, `has_failures` and
`failure_details` coherently (`failed_chunks` counts the failure
entries, `has_failures` iff that count is positive), while
`chunks_processed` counts in sentence mode the units whose final text
(corrected output or substituted original) is non-blank and in chunked
mode always equals `total_chunks`. -/
theorem c1_return_record (oracle : Nat → List Char → AdapterResult)
    (usePyc : Bool) (pre : List Char → List Char) (maxLen : Option Nat)
    (size ov : Nat) (text : List Char) (r : EngineReturn) (k : List Nat) :
    (correctSentenceMode oracle usePyc pre maxLen text = (.ret r, k) →
      ((splitBySentences maxLen text).1 = [] →
        r = ⟨text, text, 0, 0, none, none, none⟩) ∧
      ((splitBySentences maxLen text).1 ≠ [] →
        r.total_chunks = (splitBySentences maxLen text).1.length ∧
        ∃ f : List (Nat × List Char),
          r.failed_chunks = some f.length ∧
          r.has_failures = some (decide (0 < f.length)) ∧
          r.failure_details = some (if f.isEmpty then none else some f) ∧
          r.chunks_processed = ((loopGo (sentenceCfg usePyc pre) oracle 0 0
            (splitBySentences maxLen text).1).1.filter
              fun x => !(pyStrip x).isEmpty).length)) ∧
    (correctChunked oracle size ov text = (.ret r, k) →
      (splitterSplit size ov text = [] → r = ⟨text, text, 0, 0, none, none, none⟩) ∧
      (splitterSplit size ov text ≠ [] →
        r.total_chunks = (splitterSplit size ov text).length ∧
        r.chunks_processed = r.total_chunks ∧
        ∃ f : List (Nat × List Char),
          r.failed_chunks = some f.length ∧
          r.has_failures = some (decide (0 < f.length)) ∧
          r.failure_details = some (if f.isEmpty then none else some f))) := by
  constructor
  · intro heq
    constructor
    · intro hempty
      unfold correctSentenceMode at heq
      rw [if_pos (by simpa [List.isEmpty_iff] using hempty)] at heq
      have := (Prod.mk.injEq _ _ _ _ ▸ heq)
      have h1 : CorrectOutcome.ret ⟨text, text, 0, 0, none, none, none⟩ =
          CorrectOutcome.ret r := congrArg Prod.fst heq
      injection h1 with h1
      exact h1.symm
    · intro hne
      unfold correctSentenceMode at heq
      rw [if_neg (by simpa [List.isEmpty_iff] using hne)] at heq
      dsimp only at heq
      by_cases hall : (loopGo (sentenceCfg usePyc pre) oracle 0 0
          (splitBySentences maxLen text).1).2.1.length =
          (splitBySentences maxLen text).1.length
      · rw [if_pos hall] at heq
        exact absurd (congrArg Prod.fst heq) (by simp)
      · rw [if_neg hall] at heq
        have h1 := congrArg Prod.fst heq
        dsimp only at h1
        injection h1 with h1
        refine (h1 ▸ ?_)
        refine ⟨rfl, (loopGo (sentenceCfg usePyc pre) oracle 0 0
          (splitBySentences maxLen text).1).2.1, rfl, rfl, rfl, rfl⟩
  · intro heq
    constructor
    · intro hempty
      unfold correctChunked at heq
      rw [if_pos (by simpa [List.isEmpty_iff] using hempty)] at heq
      have h1 : CorrectOutcome.ret ⟨text, text, 0, 0, none, none, none⟩ =
          CorrectOutcome.ret r := congrArg Prod.fst heq
      injection h1 with h1
      exact h1.symm
    · intro hne
      unfold correctChunked at heq
      rw [if_neg (by simpa [List.isEmpty_iff] using hne)] at heq
      dsimp only at heq
      by_cases hall : (loopGo chunkedCfg oracle 0 0
          (splitterSplit size ov text)).2.1.length =
          (splitterSplit size ov text).length
      · rw [if_pos hall] at heq
        exact absurd (congrArg Prod.fst heq) (by simp)
      · rw [if_neg hall] at heq
        have h1 := congrArg Prod.fst heq
        dsimp only at h1
        injection h1 with h1
        refine (h1 ▸ ?_)
        exact ⟨rfl, loopGo_fst_length chunkedCfg oracle (splitterSplit size ov text) 0 0,
          (loopGo chunkedCfg oracle 0 0 (splitterSplit size ov text)).2.1, rfl, rfl, rfl⟩

theorem c1_witness :
    (⟨"aa\n\nbb".data, "aa\n\nbb".data, 2, 2, some 0, some false, some none⟩ :
        EngineReturn).total_chunks = (splitterSplit 3 0 "aa\n\nbb".data).length ∧
    (⟨"aa\n\nbb".data, "aa\n\nbb".data, 2, 2, some 0, some false, some none⟩ :
        EngineReturn).chunks_processed =
      (⟨"aa\n\nbb".data, "aa\n\nbb".data, 2, 2, some 0, some false, some none⟩ :
        EngineReturn).total_chunks ∧
    ∃ f : List (Nat × List Char),
      (⟨"aa\n\nbb".data, "aa\n\nbb".data, 2, 2, some 0, some false, some none⟩ :
        EngineReturn).failed_chunks = some f.length ∧
      (⟨"aa\n\nbb".data, "aa\n\nbb".data, 2, 2, some 0, some false, some none⟩ :
        EngineReturn).has_failures = some (decide (0 < f.length)) ∧
      (⟨"aa\n\nbb".data, "aa\n\nbb".data, 2, 2, some 0, some false, some none⟩ :
        EngineReturn).failure_details = some (if f.isEmpty then none else some f) :=
  ((c1_return_record (fun _ x => .ok x) false id (some 50) 3 0 "aa\n\nbb".data
    ⟨"aa\n\nbb".data, "aa\n\nbb".data, 2, 2, some 0, some false, some none⟩
    [0, 1]).2 rfl).2 (by decide)

/-! ## Durable store: `SqliteStore.list_results`
(`src/backend/services/storage/sqlite_store.py` lines 273-324)

A row of the `results` table.  `created_at` is `NOT NULL` and
`completed_at` nullable; the TEXT timestamps are abstracted to naturals
ordered as the ISO strings are.  Full texts are carried in the row but
never copied into a listing item. -/

structure ResultRow where
  result_id : List Char
  task_id : Option (List Char)
  source : List Char
  filename : List Char
  provider : Option (List Char)
  model_name : Option (List Char)
  has_changes : Bool
  use_chapters : Bool
  created_at : Nat
  completed_at : Option Nat
  original_text : Option (List Char)
  corrected_text : Option (List Char)
  original_length : Nat
  corrected_length : Nat

/-- A listing item: the metadata columns selected by `list_results`
plus the optional `chapter_count`; the text columns are not selected, so
the item type has no text fields.  (`original_length or 0` is the
identity here because the column is `NOT NULL DEFAULT 0`.) -/
structure ResultMeta where
  result_id : List Char
  task_id : Option (List Char)
  filename : List Char
  provider : Option (List Char)
  model_name : Option (List Char)
  source : List Char
  has_changes : Bool
  use_chapters : Bool
  created_at : Nat
  completed_at : Option Nat
  original_length : Nat
  corrected_length : Nat
  chapter_count : Option Nat
  deriving DecidableEq

/-- `SELECT COUNT(1) FROM chapters WHERE result_id = ?`, with the
chapters table abstracted to the multiset of its `result_id` keys. -/
def chapterCount (chapters : List (List Char)) (rid : List Char) : Nat :=
  (chapters.filter fun c => c = rid).length

/-- One listing item built from a row (sqlite_store.py lines 296-320). -/
def metaOfRow (chapters : List (List Char)) (r : ResultRow) : ResultMeta :=
  ⟨r.result_id, r.task_id, r.filename, r.provider, r.model_name, r.source,
    r.has_changes, r.use_chapters, r.created_at, r.completed_at,
    r.original_length, r.corrected_length,
    if r.use_chapters then some (chapterCount chapters r.result_id) else none⟩

/-- `COALESCE(completed_at, created_at)`. -/
def rowKey (r : ResultRow) : Nat := r.completed_at.getD r.created_at

def metaKey (it : ResultMeta) : Nat := it.completed_at.getD it.created_at

/-- `ORDER BY COALESCE(completed_at, created_at) DESC`. -/
def rowRel (a b : ResultRow) : Prop := rowKey b ≤ rowKey a

instance : DecidableRel rowRel := fun _ _ => Nat.decLe _ _

instance : IsTotal ResultRow rowRel := ⟨fun x y => Nat.le_total (rowKey y) (rowKey x)⟩

instance : IsTrans ResultRow rowRel := ⟨fun _ _ _ h1 h2 => Nat.le_trans h2 h1⟩

structure Page where
  items : List ResultMeta
  total : Nat
  limit : Int
  offset : Int

/-- `SqliteStore.list_results` (lines 273-324): clamp `limit` into
`[1, 200]` and `offset` to `≥ 0`, count all rows, return the
metadata-only items of the rows ordered by `COALESCE(completed_at,
created_at) DESC` with `LIMIT`/`OFFSET` applied, filling
`chapter_count` for chapter results. -/
def list_results (chapters : List (List Char)) (rows : List ResultRow)
    (limit offset : Int) : Page :=
  let limit1 := max 1 (min limit 200)
  let offset1 := max 0 offset
  let sorted := rows.insertionSort rowRel
  let items := ((sorted.drop offset1.toNat).take limit1.toNat).map (metaOfRow chapters)
  ⟨items, rows.length, limit1, offset1⟩

/-- C9: `list_results` clamps `limit` into `[1, 200]` and `offset` to at
least 0, reports `total`, `limit` and `offset` alongside the items, and
the items are metadata-only projections of stored rows (the item type
carries no text fields), ordered by `COALESCE(completed_at, created_at)`
descending, at most `limit` of them after dropping `offset`, with
`chapter_count` present exactly for chapter results. -/
theorem c9_list_results (chapters : List (List Char)) (rows : List ResultRow)
    (limit offset : Int) :
    (list_results chapters rows limit offset).limit = max 1 (min limit 200) ∧
    1 ≤ (list_results chapters rows limit offset).limit ∧
    (list_results chapters rows limit offset).limit ≤ 200 ∧
    (list_results chapters rows limit offset).offset = max 0 offset ∧
    0 ≤ (list_results chapters rows limit offset).offset ∧
    (list_results chapters rows limit offset).total = rows.length ∧
    (list_results chapters rows limit offset).items.length =
      min (max 1 (min limit 200)).toNat
        (rows.length - (max 0 offset).toNat) ∧
    (list_results chapters rows limit offset).items.Sorted
      (fun a b => metaKey b ≤ metaKey a) ∧
    (∀ it ∈ (list_results chapters rows limit offset).items,
      ∃ r ∈ rows, it = metaOfRow chapters r) ∧
    (∀ it ∈ (list_results chapters rows limit offset).items,
      (it.use_chapters = true →
        it.chapter_count = some (chapterCount chapters it.result_id)) ∧
      (it.use_chapters = false → it.chapter_count = none)) := by
  refine ⟨rfl, le_max_left _ _, ?_, rfl, le_max_left _ _, rfl, ?_, ?_, ?_, ?_⟩
  · show max 1 (min limit 200) ≤ 200
    omega
  · show ((((rows.insertionSort rowRel).drop (max 0 offset).toNat).take
        (max 1 (min limit 200)).toNat).map (metaOfRow chapters)).length =
      min (max 1 (min limit 200)).toNat (rows.length - (max 0 offset).toNat)
    rw [List.length_map, List.length_take, List.length_drop,
      (List.perm_insertionSort rowRel rows).length_eq]
  · show ((((rows.insertionSort rowRel).drop (max 0 offset).toNat).take
        (max 1 (min limit 200)).toNat).map (metaOfRow chapters)).Sorted
      (fun a b => metaKey b ≤ metaKey a)
    have hsorted : (rows.insertionSort rowRel).Sorted rowRel :=
      List.sorted_insertionSort rowRel rows
    have hsub : List.Sublist
        (((rows.insertionSort rowRel).drop (max 0 offset).toNat).take
          (max 1 (min limit 200)).toNat)
        (rows.insertionSort rowRel) :=
      (List.take_sublist _ _).trans (List.drop_sublist _ _)
    have hsorted2 := hsorted.sublist hsub
    refine List.Pairwise.map _ ?_ hsorted2
    intro a b hab
    simpa [metaKey, metaOfRow, rowKey, rowRel] using hab
  · intro it hit
    have hit2 : it ∈ (((rows.insertionSort rowRel).drop (max 0 offset).toNat).take
        (max 1 (min limit 200)).toNat).map (metaOfRow chapters) := hit
    rcases List.mem_map.1 hit2 with ⟨r, hr, hmap⟩
    refine ⟨r, ?_, hmap.symm⟩
    have hmem : r ∈ rows.insertionSort rowRel :=
      ((List.take_sublist _ _).trans (List.drop_sublist _ _)).mem hr
    exact (List.perm_insertionSort rowRel rows).mem_iff.1 hmem
  · intro it hit
    have hit2 : it ∈ (((rows.insertionSort rowRel).drop (max 0 offset).toNat).take
        (max 1 (min limit 200)).toNat).map (metaOfRow chapters) := hit
    rcases List.mem_map.1 hit2 with ⟨r, _, hmap⟩
    subst hmap
    constructor
    · intro hu
      simp only [metaOfRow] at hu ⊢
      rw [if_pos hu]
    · intro hu
      simp only [metaOfRow] at hu ⊢
      rw [if_neg (by simp [hu])]

/-- A sample stored row for the listing witness. -/
def rowDemo : ResultRow :=
  ⟨"r1".data, none, "task".data, "f".data, none, none, true, true, 5, none,
    none, none, 3, 4⟩

theorem c9_witness :
    (list_results ["r1".data] [rowDemo] 500 (-2)).limit = 200 ∧
    (list_results ["r1".data] [rowDemo] 500 (-2)).offset = 0 ∧
    (list_results ["r1".data] [rowDemo] 500 (-2)).total = 1 ∧
    (∀ it ∈ (list_results ["r1".data] [rowDemo] 500 (-2)).items,
      ∃ r ∈ [rowDemo], it = metaOfRow ["r1".data] r) := by
  have h := c9_list_results ["r1".data] [rowDemo] 500 (-2)
  exact ⟨h.1.trans (by norm_num), h.2.2.2.1.trans (by norm_num),
    h.2.2.2.2.2.1, h.2.2.2.2.2.2.2.2.1⟩
